import Mathlib

/-!
Verification of the XRD pattern calculator (`pymatgen/analysis/diffraction/xrd.py`)
and the `Entry` base class (`pymatgen/entries/__init__.py`).

The diffraction pipeline of `XRDCalculator.get_pattern` is embedded generically over
a linear ordered field `α` (instantiated at `ℚ` for executable checks and at `ℝ` for
the physics layer).  The transcendental per-point physics (Bragg angle, structure
factor, Lorentz-polarization factor) is carried by a `Physics` record; the concrete
real-valued physics of the source is given separately as `realPhysics`.
-/

namespace XRD

/-- A candidate reciprocal lattice point as returned by
`lattice.reciprocal_lattice_crystallographic.get_points_in_sphere`: fractional
(continuous float) Miller indices and the reciprocal-vector magnitude `g`. -/
structure CandPt (α : Type) where
  hkl : α × α × α
  g : α
  deriving Repr, DecidableEq

/-- The value stored per two-theta key in the `peaks` dict of `get_pattern`:
accumulated intensity, contributing Miller-index tuples (post hexagonal
conversion), and the first-observed d-spacing. -/
structure PeakData (α : Type) where
  intensity : α
  hkls : List (List ℤ)
  d : α
  deriving Repr, DecidableEq

/-- The per-point physics of the loop body of `get_pattern`: the two-theta angle in
degrees as a function of `g`, and the Lorentz-polarization-corrected intensity as a
function of the rounded Miller indices and `g`. -/
structure Physics (α : Type) where
  twoTheta : α → α
  intensity : ℤ × ℤ × ℤ → α → α

/-- The mutable loop state of `get_pattern`: the insertion-ordered `peaks` dict
(modelled as an association list) and the `two_thetas` list. -/
structure AggState (α : Type) where
  peaks : List (α × PeakData α)
  twoThetas : List α
  deriving Repr, DecidableEq

/-- The four parallel output arrays of the `DiffractionPattern`. -/
structure Pattern (α : Type) where
  x : List α
  y : List α
  hkls : List (List (List ℤ × ℕ))
  d_hkls : List α
  deriving Repr, DecidableEq

/-- Errors raised in the final stage of `get_pattern`: `max()` over an empty
sequence (no aggregated peak), or float division by a zero maximum intensity. -/
inductive PatternError where
  | emptySequence : PatternError
  | zeroDivision : PatternError
  deriving Repr, DecidableEq

variable {α : Type} [LinearOrderedField α] [FloorRing α]

/-- Python's built-in `round`: round half to even (banker's rounding), as used by
`hkl = [round(i) for i in hkl]`. -/
def pyRound (x : α) : ℤ :=
  let n : ℤ := ⌊x⌋
  let frac : α := x - n
  if frac < 1 / 2 then n
  else if 1 / 2 < frac then n + 1
  else if n % 2 = 0 then n else n + 1

/-- Rounding of all three fractional Miller indices of a candidate point. -/
def roundHkl (c : CandPt α) : ℤ × ℤ × ℤ :=
  (pyRound c.hkl.1, pyRound c.hkl.2.1, pyRound c.hkl.2.2)

/-- The Miller-index tuple recorded for a peak: the Miller-Bravais 4-tuple
`(h, k, -h-k, l)` for hexagonal lattices, the plain triple otherwise. -/
def recordHkl (isHex : Bool) (h : ℤ × ℤ × ℤ) : List ℤ :=
  if isHex then [h.1, h.2.1, -h.1 - h.2.1, h.2.2] else [h.1, h.2.1, h.2.2]

/-- `peaks[two_thetas[ind[0][0]]][0] += ...; peaks[...][1].append(...)`: add
intensity `i` and append tuple `h` to the dict entry with key `key`. -/
def addToPeak (key : α) (i : α) (h : List ℤ) :
    List (α × PeakData α) → List (α × PeakData α)
  | [] => []
  | (k, pd) :: rest =>
    if k = key then
      (k, ⟨pd.intensity + i, pd.hkls ++ [h], pd.d⟩) :: rest
    else
      (k, pd) :: addToPeak key i h rest

/-- `peaks[two_theta] = [...]`: dict assignment, replacing an existing binding of
the key or appending a fresh one. -/
def dictSet (key : α) (v : PeakData α) :
    List (α × PeakData α) → List (α × PeakData α)
  | [] => [(key, v)]
  | (k, pd) :: rest =>
    if k = key then (k, v) :: rest else (k, pd) :: dictSet key v rest

/-- One iteration of the main loop of `get_pattern` (lines 202-261 of `xrd.py`):
skip the origin (`g_hkl != 0` guard), compute two-theta and the corrected
intensity, then merge into an existing peak within `tol` of the new angle
(`np.where(np.abs(...) < TWO_THETA_TOL)`, first index) or create a new entry. -/
def processCand (phys : Physics α) (tol : α) (isHex : Bool)
    (st : AggState α) (c : CandPt α) : AggState α :=
  if c.g = 0 then st
  else
    let tt := phys.twoTheta c.g
    let ih := phys.intensity (roundHkl c) c.g
    let rh := recordHkl isHex (roundHkl c)
    match st.twoThetas.find? (fun t0 => |t0 - tt| < tol) with
    | some t0 => { st with peaks := addToPeak t0 ih rh st.peaks }
    | none =>
      { peaks := dictSet tt ⟨ih, [rh], (c.g)⁻¹⟩ st.peaks,
        twoThetas := st.twoThetas ++ [tt] }

/-- The Python sort key `(i[1], -i[0][0], -i[0][1], -i[0][2])` of line 202, as a
lexicographically ordered 4-tuple. -/
def candKey (c : CandPt α) : α ×ₗ α ×ₗ α ×ₗ α :=
  toLex (c.g, toLex (-c.hkl.1, toLex (-c.hkl.2.1, -c.hkl.2.2)))

/-- The total preorder in which candidate points are processed: reciprocal-vector
magnitude ascending, then Miller-index components descending. -/
def candLE (a b : CandPt α) : Prop :=
  candKey a ≤ candKey b

instance : DecidableRel (candLE (α := α)) :=
  fun a b => inferInstanceAs (Decidable (candKey a ≤ candKey b))

instance : IsTotal (CandPt α) candLE :=
  ⟨fun a b => le_total (candKey a) (candKey b)⟩

instance : IsTrans (CandPt α) candLE :=
  ⟨fun _ _ _ hab hbc => le_trans hab hbc⟩

/-- `sorted(recip_pts, key=lambda i: (i[1], -i[0][0], -i[0][1], -i[0][2]))`. -/
def sortCands (pts : List (CandPt α)) : List (CandPt α) :=
  List.insertionSort candLE pts

/-- `if min_r: recip_pts = [pt for pt in recip_pts if pt[1] >= min_r]`
(`min_r` is truthy exactly when nonzero). -/
def filterMinR (minR : α) (pts : List (CandPt α)) : List (CandPt α) :=
  if minR ≠ 0 then pts.filter (fun p => minR ≤ p.g) else pts

/-- The whole aggregation loop: sort the candidates, then fold the loop body. -/
def aggregateCands (phys : Physics α) (tol : α) (isHex : Bool)
    (pts : List (CandPt α)) : AggState α :=
  (sortCands pts).foldl (processCand phys tol isHex) ⟨[], []⟩

/-- `max(v[0] for v in peaks.values())` over a nonempty peaks dict. -/
def maxIntensity : List (α × PeakData α) → α
  | [] => 0
  | p :: rest => rest.foldl (fun m q => max m q.2.intensity) p.2.intensity

/-- Equivalence of Miller-index tuples under sign change and permutation of
components: equality of the multisets of absolute values. -/
def famKey (h : List ℤ) : List ℕ :=
  List.insertionSort (· ≤ ·) (h.map Int.natAbs)

/-- Modelled from the spec: `get_unique_families` from
`pymatgen.analysis.diffraction.core` (not part of the excerpt) groups a peak's
contributing Miller-index tuples into symmetry-equivalent families (tuples
related by sign/permutation equivalence), each family represented by one of its
members together with its multiplicity (family size). -/
def get_unique_families (hkls : List (List ℤ)) : List (List ℤ × ℕ) :=
  hkls.foldl
    (fun acc h =>
      if acc.any (fun p => famKey p.1 = famKey h) then
        acc.map (fun p => if famKey p.1 = famKey h then (p.1, p.2 + 1) else p)
      else
        acc ++ [(h, 1)])
    []

/-- Comparison of peak entries by their two-theta key. -/
def peakLE (a b : α × PeakData α) : Prop :=
  a.1 ≤ b.1

instance : DecidableRel (peakLE (α := α)) :=
  fun a b => inferInstanceAs (Decidable (a.1 ≤ b.1))

instance : IsTotal (α × PeakData α) peakLE :=
  ⟨fun a b => le_total a.1 b.1⟩

instance : IsTrans (α × PeakData α) peakLE :=
  ⟨fun _ _ _ hab hbc => le_trans hab hbc⟩

/-- The peaks dict sorted by key ascending, as iterated by `for k in sorted(peaks)`. -/
def sortPeaks (peaks : List (α × PeakData α)) : List (α × PeakData α) :=
  List.insertionSort peakLE peaks

/-- The output-building loop of `get_pattern` (lines 269-276): iterate the peaks
in ascending key order and append angle, intensity, grouped Miller-index families
and d-spacing for every peak whose intensity relative to the maximum exceeds the
`SCALED_INTENSITY_TOL` threshold `stol`. -/
def buildLoop (stol maxI : α) : Pattern α → List (α × PeakData α) → Pattern α
  | pat, [] => pat
  | pat, (k, v) :: rest =>
    let fam := get_unique_families v.hkls
    if stol < v.intensity / maxI * 100 then
      buildLoop stol maxI
        ⟨pat.x ++ [k], pat.y ++ [v.intensity], pat.hkls ++ [fam],
          pat.d_hkls ++ [v.d]⟩ rest
    else
      buildLoop stol maxI pat rest

/-- The largest element of a list (`max`/`np.max` over a nonempty sequence). -/
def maxList : List α → α
  | [] => 0
  | a :: rest => rest.foldl max a

/-- Modelled from the spec: `DiffractionPattern.normalize(mode="max", value=100)`
from `pymatgen.analysis.diffraction.core` (not part of the excerpt) linearly
rescales all intensities so that the maximum intensity becomes exactly 100. -/
def normalizePattern (pat : Pattern α) : Pattern α :=
  { pat with y := pat.y.map (fun v => v / maxList pat.y * 100) }

/-- The final stage of `get_pattern` (lines 263-280): compute the maximum
accumulated intensity (raising on an empty peaks dict), filter and emit the
peaks in ascending angle order, and optionally rescale so the maximum becomes
100. -/
def patternOf (stol : α) (scaled : Bool) (st : AggState α) :
    Except PatternError (Pattern α) :=
  match st.peaks with
  | [] => .error .emptySequence
  | _ =>
    let maxI := maxIntensity st.peaks
    if maxI = 0 then .error .zeroDivision
    else
      let pat := buildLoop stol maxI ⟨[], [], [], []⟩ (sortPeaks st.peaks)
      .ok (if scaled then normalizePattern pat else pat)

/-- `get_pattern` from the candidate points on: minimum-radius filtering, sorted
aggregation, then filtering/normalization. -/
def getPattern (phys : Physics α) (tol stol : α) (isHex : Bool) (scaled : Bool)
    (minR : α) (pts : List (CandPt α)) : Except PatternError (Pattern α) :=
  patternOf stol scaled (aggregateCands phys tol isHex (filterMinR minR pts))

/-- A species occupying a site: atomic number `sp.Z` and symbol `sp.symbol`. -/
structure SpeciesT where
  Z : ℕ
  symbol : String
  deriving Repr, DecidableEq

/-- A site of the input structure: fractional coordinates and the occupying
species with their fractional occupancies. -/
structure SiteT (α : Type) where
  fracCoords : α × α × α
  species : List (SpeciesT × α)
  deriving Repr, DecidableEq

/-- One record of the flattened per-(site, species) arrays `zs`, `coeffs`,
`frac_coords`, `occus`, `dw_factors` built in lines 174-198 of `xrd.py`. -/
structure FlatRec (α : Type) where
  z : ℕ
  coeffs : List (α × α)
  fracCoords : α × α × α
  occu : α
  dw : α
  deriving Repr, DecidableEq

/-- The flattening of one site's species list; a species whose symbol has no
entry in the scattering table raises (`except KeyError: raise ValueError`),
carrying the offending symbol. -/
def flattenSpecies (params : String → Option (List (α × α))) (dwf : String → α)
    (fc : α × α × α) : List (SpeciesT × α) → Except String (List (FlatRec α))
  | [] => .ok []
  | (sp, occu) :: rest =>
    match params sp.symbol with
    | none => .error sp.symbol
    | some c =>
      match flattenSpecies params dwf fc rest with
      | .error s => .error s
      | .ok tail => .ok (⟨sp.Z, c, fc, occu, dwf sp.symbol⟩ :: tail)

/-- The flattening loop over all sites (`for site in structure: for sp, occu in
site.species.items(): ...`): builds all per-species records or fails on the
first species with no scattering coefficients. -/
def flattenSites (params : String → Option (List (α × α))) (dwf : String → α) :
    List (SiteT α) → Except String (List (FlatRec α))
  | [] => .ok []
  | site :: rest =>
    match flattenSpecies params dwf site.fracCoords site.species with
    | .error s => .error s
    | .ok recs =>
      match flattenSites params dwf rest with
      | .error s => .error s
      | .ok tail => .ok (recs ++ tail)

/-- Errors of a whole `get_pattern` call: the `ValueError` for a species with no
scattering coefficients, or an error of the final normalization stage. -/
inductive XRDError where
  | missingScattering : String → XRDError
  | patternErr : PatternError → XRDError
  deriving Repr, DecidableEq

end XRD

namespace XRD

/-! ### The real-valued physics of the loop body (over `ℝ`) -/

/-- `math.asin`, which raises `ValueError: math domain error` outside `[-1, 1]`. -/
noncomputable def safeAsin (x : ℝ) : Option ℝ :=
  if |x| ≤ 1 then some (Real.arcsin x) else none

/-- The Bragg angle `theta = asin(wavelength * g_hkl / 2)` of line 207. -/
noncomputable def braggTheta (wl g : ℝ) : ℝ :=
  Real.arcsin (wl * g / 2)

/-- The guarded Bragg angle: `none` exactly when `math.asin` would raise. -/
noncomputable def braggThetaChecked (wl g : ℝ) : Option ℝ :=
  safeAsin (wl * g / 2)

/-- The Lorentz-polarization factor
`(1 + cos(2 theta)^2) / (sin(theta)^2 * cos(theta))` of line 241. -/
noncomputable def lorentzFactor (θ : ℝ) : ℝ :=
  (1 + Real.cos (2 * θ) ^ 2) / (Real.sin θ ^ 2 * Real.cos θ)

/-- The atomic scattering factor
`f = Z - 41.78214 * s2 * sum(a_i * exp(-b_i * s2))` of lines 228-231. -/
noncomputable def atomicF (r : FlatRec ℝ) (s2 : ℝ) : ℝ :=
  (r.z : ℝ) - 41.78214 * s2 * ((r.coeffs.map (fun ab => ab.1 * Real.exp (-ab.2 * s2))).sum)

/-- `g.r`: the dot product of the rounded Miller indices with the fractional
coordinates of one record (line 218). -/
def gDotR (hkl : ℤ × ℤ × ℤ) (fc : ℝ × ℝ × ℝ) : ℝ :=
  (hkl.1 : ℝ) * fc.1 + (hkl.2.1 : ℝ) * fc.2.1 + (hkl.2.2 : ℝ) * fc.2.2

/-- The structure factor
`f_hkl = sum(fs * occus * exp(2j pi g.r) * dw_correction)` of line 238. -/
noncomputable def structureFactor (flat : List (FlatRec ℝ)) (hkl : ℤ × ℤ × ℤ)
    (g : ℝ) : ℂ :=
  let s2 := (g / 2) ^ 2
  (flat.map (fun r =>
    ((atomicF r s2 * r.occu * Real.exp (-r.dw * s2) : ℝ) : ℂ) *
      Complex.exp (2 * Real.pi * Complex.I * (gDotR hkl r.fracCoords)))).sum

/-- `i_hkl = (f_hkl * f_hkl.conjugate()).real` of line 244. -/
noncomputable def iHkl (flat : List (FlatRec ℝ)) (hkl : ℤ × ℤ × ℤ) (g : ℝ) : ℝ :=
  (structureFactor flat hkl g * (starRingEnd ℂ) (structureFactor flat hkl g)).re

/-- The per-point physics of the source: two-theta in degrees
(`math.degrees(2 * theta)`) and the Lorentz-polarization-corrected intensity
`i_hkl * lorentz_factor`. -/
noncomputable def realPhysics (wl : ℝ) (flat : List (FlatRec ℝ)) : Physics ℝ :=
  { twoTheta := fun g => 2 * braggTheta wl g * (180 / Real.pi),
    intensity := fun hkl g => iHkl flat hkl g * lorentzFactor (braggTheta wl g) }

/-- The `(min_r, max_r)` bounds of lines 158-162: the full limiting sphere
`(0, 2/wavelength)` when no two-theta window is given, else
`2 * sin(radians(t/2)) / wavelength` at each end of the window. -/
noncomputable def rBounds (wl : ℝ) (range : Option (ℝ × ℝ)) : ℝ × ℝ :=
  match range with
  | none => (0, 2 / wl)
  | some (t1, t2) =>
    (2 * Real.sin (t1 / 2 * (Real.pi / 180)) / wl,
      2 * Real.sin (t2 / 2 * (Real.pi / 180)) / wl)

/-- The whole of `get_pattern` over `ℝ`: flatten the structure's sites (failing
on a species with no scattering coefficients), then run the point loop with the
real physics and the radius bounds derived from the two-theta window. -/
noncomputable def getPatternR (wl : ℝ) (params : String → Option (List (ℝ × ℝ)))
    (dwf : String → ℝ) (struct : List (SiteT ℝ)) (tol stol : ℝ)
    (isHex scaled : Bool) (range : Option (ℝ × ℝ)) (pts : List (CandPt ℝ)) :
    Except XRDError (Pattern ℝ) :=
  match flattenSites params dwf struct with
  | .error s => .error (.missingScattering s)
  | .ok flat =>
    match getPattern (realPhysics wl flat) tol stol isHex scaled
        (rBounds wl range).1 pts with
    | .error e => .error (.patternErr e)
    | .ok pat => .ok pat

/-! ### The constructor `XRDCalculator.__init__` -/

/-- The table of named characteristic wavelengths (`WAVELENGTHS`, in angstroms,
as exact rationals). -/
def WAVELENGTHS : List (String × ℚ) :=
  [("CuKa", 1.54184), ("CuKa2", 1.54439), ("CuKa1", 1.54056), ("CuKb1", 1.39222),
    ("MoKa", 0.71073), ("MoKa2", 0.71359), ("MoKa1", 0.70930), ("MoKb1", 0.63229),
    ("CrKa", 2.29100), ("CrKa2", 2.29361), ("CrKa1", 2.28970), ("CrKb1", 2.08487),
    ("FeKa", 1.93735), ("FeKa2", 1.93998), ("FeKa1", 1.93604), ("FeKb1", 1.75661),
    ("CoKa", 1.79026), ("CoKa2", 1.79285), ("CoKa1", 1.78896), ("CoKb1", 1.63079),
    ("AgKa", 0.560885), ("AgKa2", 0.563813), ("AgKa1", 0.559421), ("AgKb1", 0.497082)]

/-- The possible runtime types of the `wavelength` argument of
`XRDCalculator.__init__`: a number, a string, or anything else (recorded with
its type name). -/
inductive WavelengthArg where
  | num : ℚ → WavelengthArg
  | str : String → WavelengthArg
  | other : String → WavelengthArg
  deriving Repr, DecidableEq

/-- Errors of `XRDCalculator.__init__`: the explicit `TypeError`, or the
`KeyError` from `WAVELENGTHS[wavelength]` for an unknown radiation name. -/
inductive InitError where
  | typeError : String → InitError
  | keyError : String → InitError
  deriving Repr, DecidableEq

/-- The attributes of an `XRDCalculator` instance; `none` means the attribute
was never assigned (the object starts with no attributes, and an exception
leaves those assigned so far in place). -/
structure XRDCalcState where
  wavelength : Option ℚ
  radiation : Option String
  symprec : Option ℚ
  debyeWallerFactors : Option (List (String × ℚ))
  deriving Repr, DecidableEq

/-- The attribute state of a freshly allocated instance. -/
def emptyCalcState : XRDCalcState :=
  ⟨none, none, none, none⟩

/-- `XRDCalculator.__init__` (lines 120-129 of `xrd.py`), modelling attribute
assignment order: a numeric wavelength is stored directly; a string first sets
`self.radiation` and then looks the name up (raising `KeyError` on a miss,
after `radiation` is already set); any other type raises `TypeError` before any
assignment.  Returns the attribute state at exit together with the raised
exception, if any. -/
def XRDCalculator.init (w : WavelengthArg) (symprec : ℚ)
    (dwf : List (String × ℚ)) : XRDCalcState × Option InitError :=
  match w with
  | .num x =>
    ({ wavelength := some x, radiation := none, symprec := some symprec,
        debyeWallerFactors := some dwf }, none)
  | .str s =>
    match WAVELENGTHS.lookup s with
    | some v =>
      ({ wavelength := some v, radiation := some s, symprec := some symprec,
          debyeWallerFactors := some dwf }, none)
    | none =>
      ({ emptyCalcState with radiation := some s }, some (.keyError s))
  | .other t => (emptyCalcState, some (.typeError t))

end XRD

namespace Entries

/-! ### The `Entry` base class (`pymatgen/entries/__init__.py`) -/

/-- A chemical composition, kept as the (symbol, amount) map of the external
`Composition` collaborator. -/
structure Composition where
  amounts : List (String × ℚ)
  deriving Repr, DecidableEq

/-- `Composition.num_atoms`: the total of all amounts. -/
def Composition.numAtoms (c : Composition) : ℚ :=
  (c.amounts.map (·.2)).sum

/-- `composition / factor`: scalar division of all amounts. -/
def Composition.div (c : Composition) (f : ℚ) : Composition :=
  ⟨c.amounts.map (fun p => (p.1, p.2 / f))⟩

/-- An `Entry`: a composition together with an energy. -/
structure Entry where
  composition : Composition
  energy : ℚ
  deriving Repr, DecidableEq

/-- The two allowed normalization modes. -/
inductive NormMode where
  | formula_unit : NormMode
  | atom : NormMode
  deriving Repr, DecidableEq

/-- The serialization dict built by `Entry.as_dict()` (the energy and
composition fields relevant to `normalize`). -/
structure EntryDict where
  energy : ℚ
  composition : Composition
  deriving Repr, DecidableEq

/-- `Entry.as_dict()`. -/
def Entry.as_dict (e : Entry) : EntryDict :=
  ⟨e.energy, e.composition⟩

/-- `Entry.from_dict`. -/
def Entry.from_dict (d : EntryDict) : Entry :=
  ⟨d.composition, d.energy⟩

/-- `Entry._normalization_factor`: the number of atoms in `"atom"` mode, and the
reduced-formula factor — obtained from the external
`Composition.get_reduced_composition_and_factor()` collaborator, passed here as
`redFactor` — in `"formula_unit"` mode. -/
def Entry.normalizationFactor (redFactor : Composition → ℚ) (e : Entry)
    (mode : NormMode) : ℚ :=
  match mode with
  | .atom => e.composition.numAtoms
  | .formula_unit => redFactor e.composition

/-- `Entry.normalize` (lines 97-112): compute the factor, divide composition and
energy by it, and build a fresh entry through the `as_dict`/`from_dict`
round-trip, leaving the receiver untouched. -/
def Entry.normalize (redFactor : Composition → ℚ) (e : Entry)
    (mode : NormMode) : Entry :=
  let factor := Entry.normalizationFactor redFactor e mode
  let newComposition := e.composition.div factor
  let newEnergy := e.energy / factor
  let d := Entry.as_dict e
  Entry.from_dict { d with composition := newComposition, energy := newEnergy }

end Entries

namespace XRD

variable {α : Type} [LinearOrderedField α] [FloorRing α]

/-- The intensity contribution of one candidate point, as computed in the loop
body (`i_hkl * lorentz_factor` for the abstracted physics). -/
def procI (phys : Physics α) (c : CandPt α) : α :=
  phys.intensity (roundHkl c) c.g

/-- The Miller-index tuple recorded for one candidate point. -/
def procH (isHex : Bool) (c : CandPt α) : List ℤ :=
  recordHkl isHex (roundHkl c)

/-- Provenance of one aggregated peak entry: a first candidate `c` (whose
two-theta is the entry's key and whose `1/g` is the entry's d-spacing) followed
by the later candidates merged into it, in processing order; the entry's
intensity is the total of their contributions and its tuple list is their
recorded tuples in order. -/
def EntrySpec (phys : Physics α) (isHex : Bool) (processed : List (CandPt α))
    (k : α) (pd : PeakData α) : Prop :=
  ∃ c sub, (c :: sub).Sublist processed ∧ c.g ≠ 0 ∧
    k = phys.twoTheta c.g ∧ pd.d = (c.g)⁻¹ ∧
    pd.intensity = ((c :: sub).map (procI phys)).sum ∧
    pd.hkls = (c :: sub).map (procH isHex)

/-- The loop invariant of the aggregation fold: the dict keys coincide with the
`two_thetas` list, distinct recorded angles are at least `tol` apart, and every
entry has the provenance of `EntrySpec`. -/
def AggInv (phys : Physics α) (tol : α) (isHex : Bool)
    (processed : List (CandPt α)) (st : AggState α) : Prop :=
  st.peaks.map Prod.fst = st.twoThetas ∧
  st.twoThetas.Pairwise (fun a b => tol ≤ |a - b|) ∧
  ∀ p ∈ st.peaks, EntrySpec phys isHex processed p.1 p.2

/-- The 3-index to 4-index Miller-Bravais conversion on recorded tuples. -/
def hexConv : List ℤ → List ℤ
  | [a, b, c] => [a, b, -a - b, c]
  | l => l

/-- The Miller-Bravais conversion applied to the recorded tuples of one peak
entry, leaving its key, intensity and d-spacing untouched. -/
def hexEntry (p : α × PeakData α) : α × PeakData α :=
  (p.1, ⟨p.2.intensity, p.2.hkls.map hexConv, p.2.d⟩)

/-- Application of the Miller-Bravais conversion to every recorded tuple of an
aggregation state, leaving keys, intensities and d-spacings untouched. -/
def mapHexState (st : AggState α) : AggState α :=
  { peaks := st.peaks.map hexEntry, twoThetas := st.twoThetas }

/-- A trivial physics record used to exercise the pipeline on concrete inputs:
the two-theta of a point is its `g` and every intensity is `1`. -/
def trivPhysA (α : Type) [LinearOrderedField α] : Physics α :=
  ⟨fun g => g, fun _ _ => 1⟩

/-- The rational instance of the trivial physics record. -/
def trivPhys : Physics ℚ :=
  trivPhysA ℚ

/-! ### Lemmas about the aggregation loop -/

theorem addToPeak_map_fst (key i : α) (h : List ℤ) (l : List (α × PeakData α)) :
    (addToPeak key i h l).map Prod.fst = l.map Prod.fst := by
  induction l with
  | nil => rfl
  | cons p rest ih =>
    obtain ⟨k, pd⟩ := p
    by_cases hk : k = key
    · simp [addToPeak, hk]
    · simp [addToPeak, hk, ih]

theorem mem_addToPeak {key i : α} {h : List ℤ} {l : List (α × PeakData α)}
    {p : α × PeakData α} (hp : p ∈ addToPeak key i h l) :
    p ∈ l ∨ ∃ pd : PeakData α, (p.1, pd) ∈ l ∧ p.1 = key ∧
      p.2 = ⟨pd.intensity + i, pd.hkls ++ [h], pd.d⟩ := by
  induction l with
  | nil => simp [addToPeak] at hp
  | cons q rest ih =>
    obtain ⟨k, pd⟩ := q
    by_cases hk : k = key
    · rw [addToPeak, if_pos hk] at hp
      rcases List.mem_cons.mp hp with heq | hmem
      · subst heq
        exact Or.inr ⟨pd, List.mem_cons_self _ _, hk, rfl⟩
      · exact Or.inl (List.mem_cons_of_mem _ hmem)
    · rw [addToPeak, if_neg hk] at hp
      rcases List.mem_cons.mp hp with heq | hmem
      · exact Or.inl (heq ▸ List.mem_cons_self _ _)
      · rcases ih hmem with hl | ⟨pd2, hpd2, hkey, hval⟩
        · exact Or.inl (List.mem_cons_of_mem _ hl)
        · exact Or.inr ⟨pd2, List.mem_cons_of_mem _ hpd2, hkey, hval⟩

theorem dictSet_of_not_mem {key : α} (v : PeakData α)
    {l : List (α × PeakData α)} (hk : key ∉ l.map Prod.fst) :
    dictSet key v l = l ++ [(key, v)] := by
  induction l with
  | nil => rfl
  | cons q rest ih =>
    obtain ⟨k, pd⟩ := q
    simp only [List.map_cons, List.mem_cons] at hk
    push_neg at hk
    rw [dictSet, if_neg (by exact fun h => hk.1 h.symm), ih hk.2]
    simp

theorem EntrySpec.mono {phys : Physics α} {isHex : Bool}
    {processed : List (CandPt α)} {k : α} {pd : PeakData α}
    (h : EntrySpec phys isHex processed k pd) (c : CandPt α) :
    EntrySpec phys isHex (processed ++ [c]) k pd := by
  obtain ⟨c0, sub, hsub, hg, hk, hd, hi, hh⟩ := h
  exact ⟨c0, sub, hsub.trans (List.sublist_append_left _ _), hg, hk, hd, hi, hh⟩

theorem processCand_gzero {phys : Physics α} {tol : α} {isHex : Bool}
    {st : AggState α} {c : CandPt α} (hg : c.g = 0) :
    processCand phys tol isHex st c = st := by
  rw [processCand, if_pos hg]

theorem processCand_found {phys : Physics α} {tol : α} {isHex : Bool}
    {st : AggState α} {c : CandPt α} {t0 : α} (hg : ¬c.g = 0)
    (hfind : st.twoThetas.find? (fun t : α => |t - phys.twoTheta c.g| < tol) = some t0) :
    processCand phys tol isHex st c =
      { st with peaks := addToPeak t0 (procI phys c) (procH isHex c) st.peaks } := by
  rw [processCand, if_neg hg]
  simp only [hfind, procI, procH]

theorem processCand_notfound {phys : Physics α} {tol : α} {isHex : Bool}
    {st : AggState α} {c : CandPt α} (hg : ¬c.g = 0)
    (hfind : st.twoThetas.find? (fun t : α => |t - phys.twoTheta c.g| < tol) = none) :
    processCand phys tol isHex st c =
      ⟨dictSet (phys.twoTheta c.g) ⟨procI phys c, [procH isHex c], (c.g)⁻¹⟩ st.peaks,
        st.twoThetas ++ [phys.twoTheta c.g]⟩ := by
  rw [processCand, if_neg hg]
  simp only [hfind, procI, procH]

theorem aggInv_step {phys : Physics α} {tol : α} {isHex : Bool}
    {processed : List (CandPt α)} {st : AggState α}
    (htol : 0 < tol) (hinv : AggInv phys tol isHex processed st) (c : CandPt α) :
    AggInv phys tol isHex (processed ++ [c]) (processCand phys tol isHex st c) := by
  obtain ⟨hkeys, hpair, hspec⟩ := hinv
  by_cases hg : c.g = 0
  · rw [processCand_gzero hg]
    exact ⟨hkeys, hpair, fun p hp => (hspec p hp).mono c⟩
  · cases hfind : st.twoThetas.find? (fun t : α => |t - phys.twoTheta c.g| < tol) with
    | some t0 =>
      rw [processCand_found hg hfind]
      refine ⟨by rw [addToPeak_map_fst]; exact hkeys, hpair, ?_⟩
      intro p hp
      rcases mem_addToPeak hp with hmem | ⟨pd, hpd, hkey, hval⟩
      · exact (hspec p hmem).mono c
      · obtain ⟨c0, sub, hsub, hg0, hk0, hd0, hi0, hh0⟩ := hspec (p.1, pd) hpd
        refine ⟨c0, sub ++ [c], ?_, hg0, hk0, ?_, ?_, ?_⟩
        · have hsub2 : List.Sublist ((c0 :: sub) ++ [c]) (processed ++ [c]) :=
            List.Sublist.append hsub (List.Sublist.refl _)
          simpa using hsub2
        · rw [hval]; exact hd0
        · rw [hval]
          simp only [PeakData.intensity] at hi0 ⊢
          rw [hi0]
          simp [List.sum_append, add_assoc]
        · rw [hval]
          simp only [PeakData.hkls] at hh0 ⊢
          rw [hh0]
          simp
    | none =>
      have hall : ∀ t0 ∈ st.twoThetas, tol ≤ |t0 - phys.twoTheta c.g| := by
        intro t0 ht0
        have := List.find?_eq_none.mp hfind t0 ht0
        simpa using this
      have hnotmem : phys.twoTheta c.g ∉ st.twoThetas := by
        intro hmem
        have := hall _ hmem
        simp at this
        exact absurd this (not_le.mpr htol)
      rw [processCand_notfound hg hfind,
        dictSet_of_not_mem (⟨procI phys c, [procH isHex c], (c.g)⁻¹⟩ : PeakData α)
          (hkeys ▸ hnotmem)]
      refine ⟨?_, ?_, ?_⟩
      · simp [hkeys]
      · rw [List.pairwise_append]
        refine ⟨hpair, List.pairwise_singleton _ _, ?_⟩
        intro a ha b hb
        rw [List.mem_singleton] at hb
        subst hb
        exact hall a ha
      · intro p hp
        rcases List.mem_append.mp hp with hmem | hnew
        · exact (hspec p hmem).mono c
        · rw [List.mem_singleton] at hnew
          subst hnew
          refine ⟨c, [], ?_, hg, rfl, rfl, by simp, by simp⟩
          exact List.sublist_append_right processed [c]

theorem aggInv_foldl {phys : Physics α} {tol : α} {isHex : Bool}
    (htol : 0 < tol) :
    ∀ (pts : List (CandPt α)) (processed : List (CandPt α)) (st : AggState α),
      AggInv phys tol isHex processed st →
      AggInv phys tol isHex (processed ++ pts)
        (pts.foldl (processCand phys tol isHex) st) := by
  intro pts
  induction pts with
  | nil => intro processed st h; simpa using h
  | cons c rest ih =>
    intro processed st h
    have hstep := aggInv_step htol h c
    have := ih (processed ++ [c]) _ hstep
    simpa using this

theorem aggInv_aggregateCands (phys : Physics α) {tol : α} (isHex : Bool)
    (htol : 0 < tol) (pts : List (CandPt α)) :
    AggInv phys tol isHex (sortCands pts) (aggregateCands phys tol isHex pts) := by
  have hbase : AggInv phys tol isHex [] (⟨[], []⟩ : AggState α) :=
    ⟨rfl, List.Pairwise.nil, by intro p hp; simp at hp⟩
  have := aggInv_foldl htol (sortCands pts) [] _ hbase
  simpa [aggregateCands] using this

/-! ### Lemmas about maxima of lists -/

theorem le_foldl_max_init (l : List α) (init : α) : init ≤ l.foldl max init := by
  induction l generalizing init with
  | nil => exact le_refl _
  | cons b l ih => exact le_trans (le_max_left init b) (ih (max init b))

theorem le_foldl_max_mem {l : List α} {a : α} (ha : a ∈ l) (init : α) :
    a ≤ l.foldl max init := by
  induction l generalizing init with
  | nil => simp at ha
  | cons b l ih =>
    rcases List.mem_cons.mp ha with rfl | hmem
    · exact le_trans (le_max_right init a) (le_foldl_max_init l (max init a))
    · exact ih hmem (max init b)

theorem foldl_max_mem (l : List α) (init : α) :
    l.foldl max init = init ∨ l.foldl max init ∈ l := by
  induction l generalizing init with
  | nil => exact Or.inl rfl
  | cons b l ih =>
    rcases ih (max init b) with heq | hmem
    · rcases max_choice init b with h | h
      · exact Or.inl (by rw [List.foldl_cons, heq, h])
      · exact Or.inr (by rw [List.foldl_cons, heq, h]; exact List.mem_cons_self _ _)
    · exact Or.inr (List.mem_cons_of_mem _ hmem)

theorem le_maxList {l : List α} {a : α} (ha : a ∈ l) : a ≤ maxList l := by
  cases l with
  | nil => simp at ha
  | cons b rest =>
    rcases List.mem_cons.mp ha with rfl | hmem
    · exact le_foldl_max_init rest a
    · exact le_foldl_max_mem hmem b

theorem maxList_mem {l : List α} (hne : l ≠ []) : maxList l ∈ l := by
  cases l with
  | nil => exact absurd rfl hne
  | cons b rest =>
    rcases foldl_max_mem rest b with heq | hmem
    · rw [maxList, heq]; exact List.mem_cons_self _ _
    · exact List.mem_cons_of_mem _ hmem

theorem maxIntensity_eq_maxList (l : List (α × PeakData α)) :
    maxIntensity l = maxList (l.map (fun p => p.2.intensity)) := by
  cases l with
  | nil => rfl
  | cons p rest =>
    rw [maxIntensity, maxList.eq_def]
    simp only [List.map_cons]
    rw [List.foldl_map]

theorem maxList_map_of_monotone {f : α → α} (hf : Monotone f) :
    ∀ {l : List α}, l ≠ [] → maxList (l.map f) = f (maxList l) := by
  have hfold : ∀ (l : List α) (init : α),
      (l.map f).foldl max (f init) = f (l.foldl max init) := by
    intro l
    induction l with
    | nil => intro init; rfl
    | cons b l ih =>
      intro init
      simp only [List.map_cons, List.foldl_cons]
      rw [← hf.map_max, ih]
  intro l hne
  cases l with
  | nil => exact absurd rfl hne
  | cons b rest => exact hfold rest b

/-! ### Lemmas about the output-building stage -/

theorem buildLoop_eq (stol maxI : α) (pat : Pattern α)
    (l : List (α × PeakData α)) :
    buildLoop stol maxI pat l =
      ⟨pat.x ++ (l.filter (fun p => stol < p.2.intensity / maxI * 100)).map Prod.fst,
        pat.y ++ (l.filter (fun p => stol < p.2.intensity / maxI * 100)).map
          (fun p => p.2.intensity),
        pat.hkls ++ (l.filter (fun p => stol < p.2.intensity / maxI * 100)).map
          (fun p => get_unique_families p.2.hkls),
        pat.d_hkls ++ (l.filter (fun p => stol < p.2.intensity / maxI * 100)).map
          (fun p => p.2.d)⟩ := by
  induction l generalizing pat with
  | nil => simp [buildLoop]
  | cons q rest ih =>
    obtain ⟨k, v⟩ := q
    by_cases hc : stol < v.intensity / maxI * 100
    · rw [buildLoop, if_pos hc, ih]
      simp [hc]
    · rw [buildLoop, if_neg hc, ih]
      simp [hc]

theorem patternOf_empty (stol : α) (scaled : Bool) {st : AggState α}
    (h : st.peaks = []) : patternOf stol scaled st = .error .emptySequence := by
  rw [patternOf, h]

theorem patternOf_ok (stol : α) (scaled : Bool) {st : AggState α}
    (hne : st.peaks ≠ []) (hmax : maxIntensity st.peaks ≠ 0) :
    patternOf stol scaled st =
      .ok (if scaled then
        normalizePattern (buildLoop stol (maxIntensity st.peaks) ⟨[], [], [], []⟩
          (sortPeaks st.peaks))
      else
        buildLoop stol (maxIntensity st.peaks) ⟨[], [], [], []⟩
          (sortPeaks st.peaks)) := by
  obtain ⟨peaks, tts⟩ := st
  cases peaks with
  | nil => exact absurd rfl hne
  | cons a rest => simp [patternOf, hmax]

theorem sortPeaks_sorted (l : List (α × PeakData α)) :
    List.Sorted peakLE (sortPeaks l) :=
  List.sorted_insertionSort peakLE l

theorem sortPeaks_perm (l : List (α × PeakData α)) : (sortPeaks l).Perm l :=
  List.perm_insertionSort peakLE l

theorem sortCands_sorted (pts : List (CandPt α)) :
    List.Sorted candLE (sortCands pts) :=
  List.sorted_insertionSort candLE pts

theorem sortCands_perm (pts : List (CandPt α)) : (sortCands pts).Perm pts :=
  List.perm_insertionSort candLE pts

theorem patternOf_zeroDiv (stol : α) (scaled : Bool) {st : AggState α}
    (hne : st.peaks ≠ []) (hmax : maxIntensity st.peaks = 0) :
    patternOf stol scaled st = .error .zeroDivision := by
  obtain ⟨peaks, tts⟩ := st
  cases peaks with
  | nil => exact absurd rfl hne
  | cons a rest => simp [patternOf, hmax]

theorem normalizePattern_x (pat : Pattern α) : (normalizePattern pat).x = pat.x :=
  rfl

theorem normalizePattern_d (pat : Pattern α) :
    (normalizePattern pat).d_hkls = pat.d_hkls :=
  rfl

/-- The x-components of the (non-`scaled`-dependent) output: the keys, in
ascending order, of the retained peaks. -/
theorem getPattern_ok_x {phys : Physics α} {tol stol : α} {isHex scaled : Bool}
    {minR : α} {pts : List (CandPt α)} {pat : Pattern α}
    (hok : getPattern phys tol stol isHex scaled minR pts = .ok pat) :
    pat.x = ((sortPeaks (aggregateCands phys tol isHex (filterMinR minR pts)).peaks).filter
      (fun p => stol < p.2.intensity /
        maxIntensity (aggregateCands phys tol isHex (filterMinR minR pts)).peaks * 100)).map
      Prod.fst := by
  rw [getPattern] at hok
  by_cases hne : (aggregateCands phys tol isHex (filterMinR minR pts)).peaks = []
  · rw [patternOf_empty stol scaled hne] at hok
    exact absurd hok (by simp)
  by_cases hmax :
      maxIntensity (aggregateCands phys tol isHex (filterMinR minR pts)).peaks = 0
  · rw [patternOf_zeroDiv stol scaled hne hmax] at hok
    exact absurd hok (by simp)
  rw [patternOf_ok stol scaled hne hmax] at hok
  have h := Except.ok.inj hok
  cases scaled
  · rw [← h, if_neg (by simp), buildLoop_eq]
    simp
  · rw [← h, if_pos rfl, normalizePattern_x, buildLoop_eq]
    simp

/-- C1 core: the output angles are pairwise at least `tol` apart and strictly
ascending. -/
theorem getPattern_x_sep {phys : Physics α} {tol stol : α} {isHex scaled : Bool}
    {minR : α} {pts : List (CandPt α)} {pat : Pattern α} (htol : 0 < tol)
    (hok : getPattern phys tol stol isHex scaled minR pts = .ok pat) :
    List.Pairwise (· < ·) pat.x ∧ List.Pairwise (fun a b => tol ≤ |a - b|) pat.x := by
  obtain ⟨hkeys, hpair, -⟩ :=
    aggInv_aggregateCands phys isHex htol (filterMinR minR pts)
  have hpat := getPattern_ok_x hok
  have hsepAll : List.Pairwise (fun a b => tol ≤ |a - b|)
      ((sortPeaks (aggregateCands phys tol isHex (filterMinR minR pts)).peaks).map
        Prod.fst) := by
    have hsym : ∀ {x y : α}, tol ≤ |x - y| → tol ≤ |y - x| := by
      intro x y h
      rwa [abs_sub_comm]
    have hperm := (sortPeaks_perm
      (aggregateCands phys tol isHex (filterMinR minR pts)).peaks).map Prod.fst
    exact (List.Perm.pairwise_iff hsym hperm).mpr (hkeys ▸ hpair)
  have hsubl : pat.x.Sublist
      ((sortPeaks (aggregateCands phys tol isHex (filterMinR minR pts)).peaks).map
        Prod.fst) := by
    rw [hpat]
    exact (List.filter_sublist _).map _
  have hsep := List.Pairwise.sublist hsubl hsepAll
  have hle : List.Pairwise (fun a b : α => a ≤ b) pat.x := by
    rw [hpat]
    exact List.Pairwise.map Prod.fst (fun a b h => h)
      ((sortPeaks_sorted _).filter _)
  refine ⟨(hle.and hsep).imp ?_, hsep⟩
  intro a b hab
  refine lt_of_le_of_ne hab.1 ?_
  intro he
  subst he
  have := hab.2
  simp only [sub_self, abs_zero] at this
  exact absurd this (not_le.mpr htol)

/-- Full characterization of the unscaled output pattern: all four parallel
arrays come from the threshold-filtered, key-sorted peak entries. -/
theorem getPattern_ok_unscaled {phys : Physics α} {tol stol : α} {isHex : Bool}
    {minR : α} {pts : List (CandPt α)} {pat : Pattern α}
    (hok : getPattern phys tol stol isHex false minR pts = .ok pat) :
    pat = ⟨((sortPeaks (aggregateCands phys tol isHex (filterMinR minR pts)).peaks).filter
        (fun p => stol < p.2.intensity /
          maxIntensity (aggregateCands phys tol isHex (filterMinR minR pts)).peaks * 100)).map
        Prod.fst,
      ((sortPeaks (aggregateCands phys tol isHex (filterMinR minR pts)).peaks).filter
        (fun p => stol < p.2.intensity /
          maxIntensity (aggregateCands phys tol isHex (filterMinR minR pts)).peaks * 100)).map
        (fun p => p.2.intensity),
      ((sortPeaks (aggregateCands phys tol isHex (filterMinR minR pts)).peaks).filter
        (fun p => stol < p.2.intensity /
          maxIntensity (aggregateCands phys tol isHex (filterMinR minR pts)).peaks * 100)).map
        (fun p => get_unique_families p.2.hkls),
      ((sortPeaks (aggregateCands phys tol isHex (filterMinR minR pts)).peaks).filter
        (fun p => stol < p.2.intensity /
          maxIntensity (aggregateCands phys tol isHex (filterMinR minR pts)).peaks * 100)).map
        (fun p => p.2.d)⟩ := by
  rw [getPattern] at hok
  by_cases hne : (aggregateCands phys tol isHex (filterMinR minR pts)).peaks = []
  · rw [patternOf_empty stol false hne] at hok
    exact absurd hok (by simp)
  by_cases hmax :
      maxIntensity (aggregateCands phys tol isHex (filterMinR minR pts)).peaks = 0
  · rw [patternOf_zeroDiv stol false hne hmax] at hok
    exact absurd hok (by simp)
  rw [patternOf_ok stol false hne hmax] at hok
  have h := Except.ok.inj hok
  rw [← h, if_neg (by simp), buildLoop_eq]
  simp

/-- The recorded two-theta keys are distinct when the merge tolerance is
positive. -/
theorem getPattern_keys_nodup (phys : Physics α) {tol : α} (isHex : Bool)
    (htol : 0 < tol) (pts : List (CandPt α)) :
    ((sortPeaks (aggregateCands phys tol isHex pts).peaks).map Prod.fst).Nodup := by
  obtain ⟨hkeys, hpair, -⟩ :=
    aggInv_aggregateCands phys isHex htol pts
  have hperm := (sortPeaks_perm (aggregateCands phys tol isHex pts).peaks).map Prod.fst
  rw [hperm.nodup_iff, hkeys]
  exact hpair.imp (fun hab => by
    intro he
    subst he
    simp only [sub_self, abs_zero] at hab
    exact absurd hab (not_le.mpr htol))

/-! ### The Miller-Bravais conversion commutes with the pipeline -/

theorem hexConv_recordHkl (h : ℤ × ℤ × ℤ) :
    hexConv (recordHkl false h) = recordHkl true h :=
  rfl

theorem addToPeak_hexEntry (key i : α) (h : List ℤ) (l : List (α × PeakData α)) :
    addToPeak key i (hexConv h) (l.map hexEntry) =
      (addToPeak key i h l).map hexEntry := by
  induction l with
  | nil => rfl
  | cons q rest ih =>
    obtain ⟨k, pd⟩ := q
    by_cases hk : k = key
    · simp [addToPeak, hexEntry, hk]
    · simp [addToPeak, hexEntry, hk, ih]

theorem dictSet_hexEntry (key i : α) (h : List ℤ) (d : α)
    (l : List (α × PeakData α)) :
    dictSet key ⟨i, [hexConv h], d⟩ (l.map hexEntry) =
      (dictSet key ⟨i, [h], d⟩ l).map hexEntry := by
  induction l with
  | nil => rfl
  | cons q rest ih =>
    obtain ⟨k, pd⟩ := q
    by_cases hk : k = key
    · simp [dictSet, hexEntry, hk]
    · simp [dictSet, hexEntry, hk, ih]

theorem processCand_hexCommute (phys : Physics α) (tol : α) (st : AggState α)
    (c : CandPt α) :
    processCand phys tol true (mapHexState st) c =
      mapHexState (processCand phys tol false st c) := by
  by_cases hg : c.g = 0
  · rw [processCand_gzero hg, processCand_gzero hg]
  · have hph : procH true c = hexConv (procH false c) :=
      (hexConv_recordHkl (roundHkl c)).symm
    cases hfind : st.twoThetas.find? (fun t : α => |t - phys.twoTheta c.g| < tol) with
    | some t0 =>
      rw [@processCand_found _ _ _ phys tol true (mapHexState st) c t0 hg hfind,
        processCand_found hg hfind]
      simp only [mapHexState]
      rw [hph, addToPeak_hexEntry]
    | none =>
      rw [@processCand_notfound _ _ _ phys tol true (mapHexState st) c hg hfind,
        processCand_notfound hg hfind]
      simp only [mapHexState]
      rw [hph, dictSet_hexEntry]

theorem aggregate_hexCommute (phys : Physics α) (tol : α)
    (pts : List (CandPt α)) :
    aggregateCands phys tol true pts =
      mapHexState (aggregateCands phys tol false pts) := by
  have hfold : ∀ (l : List (CandPt α)) (st : AggState α),
      l.foldl (processCand phys tol true) (mapHexState st) =
        mapHexState (l.foldl (processCand phys tol false) st) := by
    intro l
    induction l with
    | nil => intro st; rfl
    | cons c rest ih =>
      intro st
      rw [List.foldl_cons, List.foldl_cons, processCand_hexCommute, ih]
  rw [aggregateCands, aggregateCands]
  exact hfold (sortCands pts) ⟨[], []⟩

theorem maxIntensity_hexEntry (l : List (α × PeakData α)) :
    maxIntensity (l.map hexEntry) = maxIntensity l := by
  cases l with
  | nil => rfl
  | cons p rest => simp [maxIntensity, hexEntry, List.foldl_map]

theorem sortPeaks_hexEntry (l : List (α × PeakData α)) :
    sortPeaks (l.map hexEntry) = (sortPeaks l).map hexEntry := by
  rw [sortPeaks, sortPeaks]
  exact (List.map_insertionSort _ _ hexEntry l (fun a _ b _ => Iff.rfl)).symm

theorem filter_hexEntry (stol maxI : α) (l : List (α × PeakData α)) :
    (l.map hexEntry).filter (fun p => stol < p.2.intensity / maxI * 100) =
      (l.filter (fun p => stol < p.2.intensity / maxI * 100)).map hexEntry := by
  rw [List.filter_map]
  rfl

theorem patternOf_mapHex (stol : α) (scaled : Bool) (st : AggState α) :
    (patternOf stol scaled (mapHexState st)).map Pattern.x =
        (patternOf stol scaled st).map Pattern.x ∧
      (patternOf stol scaled (mapHexState st)).map Pattern.y =
        (patternOf stol scaled st).map Pattern.y ∧
      (patternOf stol scaled (mapHexState st)).map Pattern.d_hkls =
        (patternOf stol scaled st).map Pattern.d_hkls := by
  by_cases hne : st.peaks = []
  · have hne2 : (mapHexState st).peaks = [] := by simp [mapHexState, hne]
    rw [patternOf_empty stol scaled hne2, patternOf_empty stol scaled hne]
    exact ⟨rfl, rfl, rfl⟩
  have hne2 : (mapHexState st).peaks ≠ [] := by simp [mapHexState, hne]
  have hmaxeq : maxIntensity (mapHexState st).peaks = maxIntensity st.peaks :=
    maxIntensity_hexEntry st.peaks
  by_cases hmax : maxIntensity st.peaks = 0
  · rw [patternOf_zeroDiv stol scaled hne2 (hmaxeq.trans hmax),
      patternOf_zeroDiv stol scaled hne hmax]
    exact ⟨rfl, rfl, rfl⟩
  rw [patternOf_ok stol scaled hne2 (fun h => hmax (hmaxeq ▸ h)),
    patternOf_ok stol scaled hne hmax]
  have hpeaks' : (mapHexState st).peaks = st.peaks.map hexEntry := rfl
  have hbuild :
      ∀ cpt : Pattern α → List α,
        (cpt = Pattern.x ∨ cpt = Pattern.y ∨ cpt = Pattern.d_hkls) →
        cpt (buildLoop stol (maxIntensity (mapHexState st).peaks) ⟨[], [], [], []⟩
            (sortPeaks (mapHexState st).peaks)) =
          cpt (buildLoop stol (maxIntensity st.peaks) ⟨[], [], [], []⟩
            (sortPeaks st.peaks)) := by
    intro cpt hcpt
    rw [hmaxeq, hpeaks', sortPeaks_hexEntry, buildLoop_eq, buildLoop_eq,
      filter_hexEntry]
    rcases hcpt with rfl | rfl | rfl <;> simp [hexEntry, List.map_map, Function.comp]
  have hx := hbuild Pattern.x (Or.inl rfl)
  have hy := hbuild Pattern.y (Or.inr (Or.inl rfl))
  have hd := hbuild Pattern.d_hkls (Or.inr (Or.inr rfl))
  cases scaled
  · simp only [if_neg (by simp : ¬(false = true))]
    exact ⟨by simp [Except.map, hx], by simp [Except.map, hy], by simp [Except.map, hd]⟩
  · simp only [if_pos rfl]
    refine ⟨by simp [Except.map, normalizePattern_x, hx], ?_,
      by simp [Except.map, normalizePattern_d, hd]⟩
    have hnorm : (normalizePattern (buildLoop stol (maxIntensity (mapHexState st).peaks)
        ⟨[], [], [], []⟩ (sortPeaks (mapHexState st).peaks))).y =
        (normalizePattern (buildLoop stol (maxIntensity st.peaks)
          ⟨[], [], [], []⟩ (sortPeaks st.peaks))).y := by
      rw [normalizePattern, normalizePattern]
      simp only [hy]
    simp [Except.map, hnorm]

theorem normalizePattern_hkls (pat : Pattern α) :
    (normalizePattern pat).hkls = pat.hkls :=
  rfl

/-- The hkls component of any successful output: the grouped families of the
retained peaks. -/
theorem getPattern_ok_hkls {phys : Physics α} {tol stol : α} {isHex scaled : Bool}
    {minR : α} {pts : List (CandPt α)} {pat : Pattern α}
    (hok : getPattern phys tol stol isHex scaled minR pts = .ok pat) :
    pat.hkls = ((sortPeaks (aggregateCands phys tol isHex (filterMinR minR pts)).peaks).filter
      (fun p => stol < p.2.intensity /
        maxIntensity (aggregateCands phys tol isHex (filterMinR minR pts)).peaks * 100)).map
      (fun p => get_unique_families p.2.hkls) := by
  rw [getPattern] at hok
  by_cases hne : (aggregateCands phys tol isHex (filterMinR minR pts)).peaks = []
  · rw [patternOf_empty stol scaled hne] at hok
    exact absurd hok (by simp)
  by_cases hmax :
      maxIntensity (aggregateCands phys tol isHex (filterMinR minR pts)).peaks = 0
  · rw [patternOf_zeroDiv stol scaled hne hmax] at hok
    exact absurd hok (by simp)
  rw [patternOf_ok stol scaled hne hmax] at hok
  have h := Except.ok.inj hok
  cases scaled
  · rw [← h, if_neg (by simp), buildLoop_eq]
    simp
  · rw [← h, if_pos rfl, normalizePattern_hkls, buildLoop_eq]
    simp

/-- Every family representative emitted by `get_unique_families` is one of the
input tuples. -/
theorem get_unique_families_fst_mem {l : List (List ℤ)} {pr : List ℤ × ℕ}
    (hpr : pr ∈ get_unique_families l) : pr.1 ∈ l := by
  have aux : ∀ (l2 : List (List ℤ)) (acc : List (List ℤ × ℕ)) (q : List ℤ × ℕ),
      q ∈ l2.foldl
        (fun acc h =>
          if acc.any (fun p => famKey p.1 = famKey h) then
            acc.map (fun p => if famKey p.1 = famKey h then (p.1, p.2 + 1) else p)
          else
            acc ++ [(h, 1)]) acc →
      q.1 ∈ acc.map Prod.fst ∨ q.1 ∈ l2 := by
    intro l2
    induction l2 with
    | nil =>
      intro acc q hq
      exact Or.inl (List.mem_map_of_mem Prod.fst hq)
    | cons h t ih =>
      intro acc q hq
      rw [List.foldl_cons] at hq
      rcases ih _ q hq with hin | hin
      · by_cases hany : (acc.any (fun p => famKey p.1 = famKey h)) = true
        · rw [if_pos hany] at hin
          have hmap : (acc.map (fun p =>
              if famKey p.1 = famKey h then (p.1, p.2 + 1) else p)).map Prod.fst =
              acc.map Prod.fst := by
            rw [List.map_map]
            apply List.map_congr_left
            intro p _
            by_cases hc : famKey p.1 = famKey h <;> simp [hc]
          rw [hmap] at hin
          exact Or.inl hin
        · rw [if_neg hany, List.map_append] at hin
          rcases List.mem_append.mp hin with h1 | h1
          · exact Or.inl h1
          · simp only [List.map_cons, List.map_nil, List.mem_singleton] at h1
            exact Or.inr (h1 ▸ List.mem_cons_self _ _)
      · exact Or.inr (List.mem_cons_of_mem _ hin)
  rcases aux l [] pr hpr with h0 | h0
  · simp at h0
  · exact h0

/-- Every Miller tuple in a successful output pattern was recorded by
`recordHkl isHex` for some integer triple. -/
theorem getPattern_recorded_shape {phys : Physics α} {tol stol : α}
    {isHex scaled : Bool} {minR : α} {pts : List (CandPt α)} {pat : Pattern α}
    (htol : 0 < tol)
    (hok : getPattern phys tol stol isHex scaled minR pts = .ok pat) :
    ∀ fam ∈ pat.hkls, ∀ pr ∈ fam, ∃ t : ℤ × ℤ × ℤ, pr.1 = recordHkl isHex t := by
  have hh := getPattern_ok_hkls hok
  intro fam hfam pr hpr
  rw [hh] at hfam
  obtain ⟨q, hq, rfl⟩ := List.mem_map.mp hfam
  have hq1 : q ∈ sortPeaks
      (aggregateCands phys tol isHex (filterMinR minR pts)).peaks :=
    List.mem_of_mem_filter hq
  have hq2 : q ∈ (aggregateCands phys tol isHex (filterMinR minR pts)).peaks :=
    (sortPeaks_perm _).mem_iff.mp hq1
  obtain ⟨-, -, hspec⟩ :=
    aggInv_aggregateCands phys isHex htol (filterMinR minR pts)
  obtain ⟨c, sub, -, -, -, -, -, hhkls⟩ := hspec q hq2
  have hm : pr.1 ∈ q.2.hkls := get_unique_families_fst_mem hpr
  rw [hhkls] at hm
  obtain ⟨c2, -, heq⟩ := List.mem_map.mp hm
  exact ⟨roundHkl c2, by rw [← heq]; rfl⟩

/-! ### Concrete executions of the pipeline -/

theorem pyRound_zero : pyRound (0 : α) = 0 := by
  rw [pyRound]
  norm_num

theorem concreteAgg : aggregateCands (trivPhysA α) 1 false [⟨(0, 0, 0), 1⟩] =
    ⟨[(1, ⟨1, [[0, 0, 0]], 1⟩)], [1]⟩ := by
  have h1 : sortCands (α := α) [⟨(0, 0, 0), 1⟩] = [⟨(0, 0, 0), 1⟩] := by
    simp [sortCands, List.insertionSort]
  rw [aggregateCands, h1]
  simp only [List.foldl_cons, List.foldl_nil]
  rw [processCand_notfound (by norm_num) (by simp)]
  simp [dictSet, procI, procH, roundHkl, pyRound_zero, recordHkl, trivPhysA]

theorem concreteRun0 (scaled : Bool) :
    getPattern (trivPhysA α) 1 0 false scaled 0 [⟨(0, 0, 0), 1⟩] =
      .ok (if scaled then ⟨[1], [100], [[([0, 0, 0], 1)]], [1]⟩
        else ⟨[1], [1], [[([0, 0, 0], 1)]], [1]⟩) := by
  rw [getPattern]
  have hf : filterMinR (0 : α) [⟨(0, 0, 0), 1⟩] = [⟨(0, 0, 0), 1⟩] := by
    simp [filterMinR]
  rw [hf, concreteAgg]
  rw [patternOf_ok 0 scaled (by simp) (by simp [maxIntensity])]
  have hs : sortPeaks (α := α) [(1, ⟨1, [[0, 0, 0]], 1⟩)] =
      [(1, ⟨1, [[0, 0, 0]], 1⟩)] := by
    simp [sortPeaks, List.insertionSort]
  have hguf : get_unique_families [[0, 0, 0]] = [([0, 0, 0], 1)] := by
    simp [get_unique_families, famKey]
  have hbl : buildLoop (0 : α) (maxIntensity [(1, ⟨1, [[0, 0, 0]], 1⟩)])
      ⟨[], [], [], []⟩ (sortPeaks [(1, ⟨1, [[0, 0, 0]], 1⟩)]) =
      ⟨[1], [1], [[([0, 0, 0], 1)]], [1]⟩ := by
    rw [hs, buildLoop_eq]
    simp only [maxIntensity]
    norm_num
    exact hguf
  cases scaled
  · simp only [if_neg (by simp : ¬(false = true)), hbl]
  · simp only [if_pos rfl, hbl]
    simp [normalizePattern, maxList]

theorem concreteRun : getPattern trivPhys 1 0 false false 0 [⟨(0, 0, 0), 1⟩] =
    .ok ⟨[1], [1], [[([0, 0, 0], 1)]], [1]⟩ := by
  have h := concreteRun0 (α := ℚ) false
  simpa [trivPhys] using h

/-! ### Non-negativity of accumulated intensities -/

theorem mem_dictSet {key : α} {v : PeakData α} {l : List (α × PeakData α)}
    {p : α × PeakData α} (hp : p ∈ dictSet key v l) : p ∈ l ∨ p = (key, v) := by
  induction l with
  | nil => simpa [dictSet] using hp
  | cons q rest ih =>
    obtain ⟨k, pd⟩ := q
    by_cases hk : k = key
    · rw [dictSet, if_pos hk] at hp
      rcases List.mem_cons.mp hp with heq | hmem
      · exact Or.inr (by rw [heq, hk])
      · exact Or.inl (List.mem_cons_of_mem _ hmem)
    · rw [dictSet, if_neg hk] at hp
      rcases List.mem_cons.mp hp with heq | hmem
      · exact Or.inl (heq ▸ List.mem_cons_self _ _)
      · rcases ih hmem with h1 | h1
        · exact Or.inl (List.mem_cons_of_mem _ h1)
        · exact Or.inr h1

theorem agg_intensity_nonneg {phys : Physics α} (tol : α) (isHex : Bool)
    (pts : List (CandPt α)) (hI : ∀ hkl g, 0 ≤ phys.intensity hkl g) :
    ∀ p ∈ (aggregateCands phys tol isHex pts).peaks, 0 ≤ p.2.intensity := by
  have hstep : ∀ (st : AggState α) (c : CandPt α),
      (∀ p ∈ st.peaks, 0 ≤ p.2.intensity) →
      ∀ p ∈ (processCand phys tol isHex st c).peaks, 0 ≤ p.2.intensity := by
    intro st c ih p hp
    by_cases hg : c.g = 0
    · rw [processCand_gzero hg] at hp
      exact ih p hp
    · cases hfind : st.twoThetas.find? (fun t : α => |t - phys.twoTheta c.g| < tol) with
      | some t0 =>
        rw [processCand_found hg hfind] at hp
        rcases mem_addToPeak hp with hmem | ⟨pd, hpd, -, hval⟩
        · exact ih p hmem
        · rw [hval]
          exact add_nonneg (ih (p.1, pd) hpd) (hI _ _)
      | none =>
        rw [processCand_notfound hg hfind] at hp
        rcases mem_dictSet hp with hmem | heq
        · exact ih p hmem
        · rw [heq]
          exact hI _ _
  have hfold : ∀ (l : List (CandPt α)) (st : AggState α),
      (∀ p ∈ st.peaks, 0 ≤ p.2.intensity) →
      ∀ p ∈ (l.foldl (processCand phys tol isHex) st).peaks, 0 ≤ p.2.intensity := by
    intro l
    induction l with
    | nil => intro st h; exact h
    | cons c rest ih =>
      intro st h
      exact ih _ (hstep st c h)
  rw [aggregateCands]
  exact hfold _ _ (by intro p hp; simp at hp)

theorem maxIntensity_nonneg {l : List (α × PeakData α)} (hne : l ≠ [])
    (h : ∀ p ∈ l, 0 ≤ p.2.intensity) : 0 ≤ maxIntensity l := by
  rw [maxIntensity_eq_maxList]
  have hne2 : l.map (fun p => p.2.intensity) ≠ [] := by simpa using hne
  obtain ⟨p, hp, heq⟩ := List.mem_map.mp (maxList_mem hne2)
  rw [← heq]
  exact h p hp

/-- All intensities of a successful output are non-negative and, when `scaled`,
the maximum output intensity is exactly 100 — for any physics whose per-point
intensities are non-negative. -/
theorem getPattern_y_nonneg_scaled_max {phys : Physics α} {tol stol : α}
    {isHex scaled : Bool} {minR : α} {pts : List (CandPt α)} {pat : Pattern α}
    (hstol : 0 ≤ stol) (hI : ∀ hkl g, 0 ≤ phys.intensity hkl g)
    (hok : getPattern phys tol stol isHex scaled minR pts = .ok pat) :
    (∀ v ∈ pat.y, 0 ≤ v) ∧ (scaled = true → pat.y ≠ [] → maxList pat.y = 100) := by
  rw [getPattern] at hok
  by_cases hne : (aggregateCands phys tol isHex (filterMinR minR pts)).peaks = []
  · rw [patternOf_empty stol scaled hne] at hok
    exact absurd hok (by simp)
  by_cases hmax :
      maxIntensity (aggregateCands phys tol isHex (filterMinR minR pts)).peaks = 0
  · rw [patternOf_zeroDiv stol scaled hne hmax] at hok
    exact absurd hok (by simp)
  have hnn := agg_intensity_nonneg tol isHex (filterMinR minR pts) hI
  have hmaxpos :
      0 < maxIntensity (aggregateCands phys tol isHex (filterMinR minR pts)).peaks :=
    lt_of_le_of_ne (maxIntensity_nonneg hne hnn) (Ne.symm hmax)
  rw [patternOf_ok stol scaled hne hmax] at hok
  have h := Except.ok.inj hok
  have hPy : (buildLoop stol
      (maxIntensity (aggregateCands phys tol isHex (filterMinR minR pts)).peaks)
      ⟨[], [], [], []⟩
      (sortPeaks (aggregateCands phys tol isHex (filterMinR minR pts)).peaks)).y =
      ((sortPeaks (aggregateCands phys tol isHex (filterMinR minR pts)).peaks).filter
        (fun p => stol < p.2.intensity /
          maxIntensity (aggregateCands phys tol isHex (filterMinR minR pts)).peaks * 100)).map
        (fun p => p.2.intensity) := by
    rw [buildLoop_eq]
    simp
  have hypos : ∀ v ∈ (buildLoop stol
      (maxIntensity (aggregateCands phys tol isHex (filterMinR minR pts)).peaks)
      ⟨[], [], [], []⟩
      (sortPeaks (aggregateCands phys tol isHex (filterMinR minR pts)).peaks)).y,
      0 < v := by
    intro v hv
    rw [hPy] at hv
    obtain ⟨q, hq, heq⟩ := List.mem_map.mp hv
    have hqpred : stol < q.2.intensity /
        maxIntensity (aggregateCands phys tol isHex (filterMinR minR pts)).peaks * 100 := by
      have := List.of_mem_filter hq
      simpa using this
    have h100 : 0 < q.2.intensity /
        maxIntensity (aggregateCands phys tol isHex (filterMinR minR pts)).peaks * 100 :=
      lt_of_le_of_lt hstol hqpred
    have hdiv : 0 < q.2.intensity /
        maxIntensity (aggregateCands phys tol isHex (filterMinR minR pts)).peaks := by
      nlinarith
    rw [← heq]
    rcases div_pos_iff.mp hdiv with ⟨h1, -⟩ | ⟨-, h2⟩
    · exact h1
    · exact absurd hmaxpos (not_lt.mpr (le_of_lt h2))
  cases scaled
  · rw [← h, if_neg (by simp)]
    refine ⟨fun v hv => le_of_lt (hypos v hv), by simp⟩
  · rw [← h, if_pos rfl]
    by_cases hPe : (buildLoop stol
        (maxIntensity (aggregateCands phys tol isHex (filterMinR minR pts)).peaks)
        ⟨[], [], [], []⟩
        (sortPeaks (aggregateCands phys tol isHex (filterMinR minR pts)).peaks)).y = []
    · rw [normalizePattern, hPe]
      refine ⟨by simp, fun _ hc => ?_⟩
      simp at hc
    · have hMpos : 0 < maxList (buildLoop stol
          (maxIntensity (aggregateCands phys tol isHex (filterMinR minR pts)).peaks)
          ⟨[], [], [], []⟩
          (sortPeaks (aggregateCands phys tol isHex (filterMinR minR pts)).peaks)).y :=
        hypos _ (maxList_mem hPe)
      constructor
      · intro v hv
        rw [normalizePattern] at hv
        obtain ⟨w, hw, heq⟩ := List.mem_map.mp hv
        rw [← heq]
        have := le_of_lt (hypos w hw)
        positivity
      · intro _ _
        rw [normalizePattern]
        simp only []
        have hmono : Monotone (fun v : α => v / maxList (buildLoop stol
            (maxIntensity (aggregateCands phys tol isHex (filterMinR minR pts)).peaks)
            ⟨[], [], [], []⟩
            (sortPeaks (aggregateCands phys tol isHex (filterMinR minR pts)).peaks)).y * 100) := by
          intro a b hab
          exact mul_le_mul_of_nonneg_right ((div_le_div_right hMpos).mpr hab)
            (by norm_num)
        rw [maxList_map_of_monotone hmono hPe]
        field_simp

/-! ### The real-valued physics layer -/

theorem safeAsin_eq_none_iff {x : ℝ} : safeAsin x = none ↔ 1 < |x| := by
  rw [safeAsin]
  split_ifs with h
  · exact iff_of_false (by simp) (not_lt.mpr h)
  · exact iff_of_true rfl (not_le.mp h)

theorem braggThetaChecked_none_iff {wl g : ℝ} (hwl : 0 < wl) (hg : 0 ≤ g) :
    braggThetaChecked wl g = none ↔ 2 / wl < g := by
  rw [braggThetaChecked, safeAsin_eq_none_iff]
  have habs : |wl * g / 2| = wl * g / 2 := abs_of_nonneg (by positivity)
  rw [habs, lt_div_iff (by norm_num : (0 : ℝ) < 2), div_lt_iff hwl, one_mul,
    mul_comm wl g]

theorem rBounds_max_le {wl : ℝ} (hwl : 0 < wl) (range : Option (ℝ × ℝ)) :
    (rBounds wl range).2 ≤ 2 / wl := by
  cases range with
  | none => exact le_refl _
  | some p =>
    obtain ⟨t1, t2⟩ := p
    simp only [rBounds]
    rw [div_le_div_iff_of_pos_right hwl]
    calc 2 * Real.sin (t2 / 2 * (Real.pi / 180)) ≤ 2 * 1 :=
          mul_le_mul_of_nonneg_left (Real.sin_le_one _) (by norm_num)
      _ = 2 := by norm_num

theorem braggTheta_defined_in_window {wl g : ℝ} (range : Option (ℝ × ℝ))
    (hwl : 0 < wl) (hg : 0 ≤ g) (hle : g ≤ (rBounds wl range).2) :
    braggThetaChecked wl g ≠ none := by
  intro hnone
  rw [braggThetaChecked_none_iff hwl hg] at hnone
  exact absurd hnone (not_lt.mpr (le_trans hle (rBounds_max_le hwl range)))

theorem iHkl_nonneg (flat : List (FlatRec ℝ)) (hkl : ℤ × ℤ × ℤ) (g : ℝ) :
    0 ≤ iHkl flat hkl g := by
  rw [iHkl, Complex.mul_conj, Complex.ofReal_re]
  exact Complex.normSq_nonneg _

theorem lorentzFactor_arcsin_nonneg (x : ℝ) :
    0 ≤ lorentzFactor (Real.arcsin x) := by
  rw [lorentzFactor]
  apply div_nonneg
  · positivity
  · apply mul_nonneg (sq_nonneg _)
    rw [Real.cos_arcsin]
    exact Real.sqrt_nonneg _

theorem realPhysics_intensity_nonneg (wl : ℝ) (flat : List (FlatRec ℝ))
    (hkl : ℤ × ℤ × ℤ) (g : ℝ) : 0 ≤ (realPhysics wl flat).intensity hkl g :=
  mul_nonneg (iHkl_nonneg flat hkl g) (lorentzFactor_arcsin_nonneg _)

/-! ### The scattering-table error is all-or-nothing -/

theorem flattenSpecies_error_params {params : String → Option (List (α × α))}
    {dwf : String → α} {fc : α × α × α} :
    ∀ {specs : List (SpeciesT × α)} {s : String},
      flattenSpecies params dwf fc specs = .error s → params s = none := by
  intro specs
  induction specs with
  | nil => intro s h; simp [flattenSpecies] at h
  | cons q rest ih =>
    intro s h
    obtain ⟨sp, occu⟩ := q
    rw [flattenSpecies] at h
    cases hq : params sp.symbol with
    | none =>
      rw [hq] at h
      have hs : sp.symbol = s := by simpa using h
      rw [← hs]
      exact hq
    | some c =>
      rw [hq] at h
      cases hrest : flattenSpecies params dwf fc rest with
      | error s2 =>
        rw [hrest] at h
        have : s2 = s := by simpa using h
        exact this ▸ ih hrest
      | ok tail =>
        rw [hrest] at h
        simp at h

theorem flattenSpecies_ok_all {params : String → Option (List (α × α))}
    {dwf : String → α} {fc : α × α × α} :
    ∀ {specs : List (SpeciesT × α)} {recs : List (FlatRec α)},
      flattenSpecies params dwf fc specs = .ok recs →
      ∀ p ∈ specs, params p.1.symbol ≠ none := by
  intro specs
  induction specs with
  | nil => intro recs _ p hp; simp at hp
  | cons q rest ih =>
    intro recs h p hp
    obtain ⟨sp, occu⟩ := q
    rw [flattenSpecies] at h
    cases hq : params sp.symbol with
    | none => rw [hq] at h; simp at h
    | some c =>
      rw [hq] at h
      cases hrest : flattenSpecies params dwf fc rest with
      | error s2 => rw [hrest] at h; simp at h
      | ok tail =>
        rcases List.mem_cons.mp hp with heq | hmem
        · rw [heq]
          simp [hq]
        · exact ih hrest p hmem

theorem flattenSites_error_params {params : String → Option (List (α × α))}
    {dwf : String → α} :
    ∀ {struct : List (SiteT α)} {s : String},
      flattenSites params dwf struct = .error s → params s = none := by
  intro struct
  induction struct with
  | nil => intro s h; simp [flattenSites] at h
  | cons site rest ih =>
    intro s h
    rw [flattenSites] at h
    cases hsp : flattenSpecies params dwf site.fracCoords site.species with
    | error s2 =>
      rw [hsp] at h
      have : s2 = s := by simpa using h
      exact this ▸ flattenSpecies_error_params hsp
    | ok recs =>
      rw [hsp] at h
      cases hrest : flattenSites params dwf rest with
      | error s2 =>
        rw [hrest] at h
        have : s2 = s := by simpa using h
        exact this ▸ ih hrest
      | ok tail => rw [hrest] at h; simp at h

theorem flattenSites_error_of_missing {params : String → Option (List (α × α))}
    {dwf : String → α} :
    ∀ {struct : List (SiteT α)},
      (∃ site ∈ struct, ∃ p ∈ site.species, params p.1.symbol = none) →
      ∃ s, flattenSites params dwf struct = .error s ∧ params s = none := by
  intro struct
  induction struct with
  | nil => rintro ⟨site, hsite, -⟩; simp at hsite
  | cons site rest ih =>
    rintro ⟨site2, hsite2, p, hp, hnone⟩
    rw [flattenSites]
    cases hsp : flattenSpecies params dwf site.fracCoords site.species with
    | error s => exact ⟨s, rfl, flattenSpecies_error_params hsp⟩
    | ok recs =>
      have hrest : ∃ site3 ∈ rest, ∃ p2 ∈ site3.species, params p2.1.symbol = none := by
        rcases List.mem_cons.mp hsite2 with heq | hmem
        · subst heq
          exact absurd hnone (flattenSpecies_ok_all hsp p hp)
        · exact ⟨site2, hmem, p, hp, hnone⟩
      obtain ⟨s, hs, hsn⟩ := ih hrest
      rw [hs]
      exact ⟨s, rfl, hsn⟩

end XRD

namespace XRD

/-! ## Claim theorems -/

/-- C1: for every pattern returned by `get_pattern`, the two-theta values are
strictly ascending, and no two output peaks lie within the angular merge
tolerance `TWO_THETA_TOL` of each other: a candidate whose two-theta falls
within the tolerance of an already-recorded angle is merged into that peak
rather than creating a new one, so distinct recorded angles stay at least the
tolerance apart. -/
theorem c1_two_thetas_ascending_and_separated {α : Type} [LinearOrderedField α]
    [FloorRing α] (phys : Physics α) {tol : α} (stol : α) (isHex scaled : Bool)
    (minR : α) (pts : List (CandPt α)) {pat : Pattern α} (htol : 0 < tol)
    (hok : getPattern phys tol stol isHex scaled minR pts = .ok pat) :
    List.Pairwise (· < ·) pat.x ∧
      List.Pairwise (fun a b => tol ≤ |a - b|) pat.x :=
  getPattern_x_sep htol hok

/-- C2: candidate points are processed in the order obtained by sorting on
(`g` ascending, then the three Miller-index components descending), and every
aggregated peak consists of a first-processed point — whose two-theta is the
recorded key and whose `1/g` is the recorded d-spacing — followed by the later
points merged into it, which only add their intensity (summed) and their
recorded Miller-index tuple (appended) to that entry. -/
theorem c2_sorted_processing_first_point_wins {α : Type} [LinearOrderedField α]
    [FloorRing α] (phys : Physics α) {tol : α} (isHex : Bool)
    (pts : List (CandPt α)) (htol : 0 < tol) :
    ((sortCands pts).Perm pts ∧ List.Sorted candLE (sortCands pts)) ∧
      ∀ p ∈ (aggregateCands phys tol isHex pts).peaks,
        ∃ c sub, List.Sublist (c :: sub) (sortCands pts) ∧ c.g ≠ 0 ∧
          p.1 = phys.twoTheta c.g ∧ p.2.d = (c.g)⁻¹ ∧
          p.2.intensity = ((c :: sub).map (procI phys)).sum ∧
          p.2.hkls = (c :: sub).map (procH isHex) := by
  refine ⟨⟨sortCands_perm pts, sortCands_sorted pts⟩, ?_⟩
  intro p hp
  obtain ⟨-, -, hspec⟩ := aggInv_aggregateCands phys isHex htol pts
  exact hspec p hp

/-- Witness for C2 at a concrete input. -/
theorem c2_witness :
    (0 : ℚ) < 1 ∧
      (((sortCands [⟨(0, 0, 0), 1⟩]).Perm [(⟨(0, 0, 0), 1⟩ : CandPt ℚ)] ∧
          List.Sorted candLE (sortCands [(⟨(0, 0, 0), 1⟩ : CandPt ℚ)])) ∧
        ∀ p ∈ (aggregateCands trivPhys 1 false [⟨(0, 0, 0), 1⟩]).peaks,
          ∃ c sub, List.Sublist (c :: sub) (sortCands [⟨(0, 0, 0), 1⟩]) ∧ c.g ≠ 0 ∧
            p.1 = trivPhys.twoTheta c.g ∧ p.2.d = (c.g)⁻¹ ∧
            p.2.intensity = ((c :: sub).map (procI trivPhys)).sum ∧
            p.2.hkls = (c :: sub).map (procH false)) :=
  ⟨one_pos, c2_sorted_processing_first_point_wins trivPhys false
    [⟨(0, 0, 0), 1⟩] one_pos⟩

/-- C9: when the (window-filtered) candidate list contains no point of nonzero
reciprocal magnitude, no peak is ever aggregated and `get_pattern` fails with
the empty-sequence error from `max()` instead of returning an empty pattern. -/
theorem c9_no_points_empty_max_error {α : Type} [LinearOrderedField α]
    [FloorRing α] (phys : Physics α) (tol stol : α) (isHex scaled : Bool)
    (minR : α) (pts : List (CandPt α))
    (hall : ∀ p ∈ filterMinR minR pts, p.g = 0) :
    getPattern phys tol stol isHex scaled minR pts =
      .error .emptySequence := by
  have hfold : ∀ (l : List (CandPt α)) (st : AggState α), (∀ c ∈ l, c.g = 0) →
      l.foldl (processCand phys tol isHex) st = st := by
    intro l
    induction l with
    | nil => intro st _; rfl
    | cons c rest ih =>
      intro st hz
      rw [List.foldl_cons, processCand_gzero (hz c (List.mem_cons_self _ _))]
      exact ih st (fun x hx => hz x (List.mem_cons_of_mem _ hx))
  have hsorted0 : ∀ c ∈ sortCands (filterMinR minR pts), c.g = 0 := by
    intro c hc
    exact hall c ((sortCands_perm (filterMinR minR pts)).mem_iff.mp hc)
  have hagg : aggregateCands phys tol isHex (filterMinR minR pts) =
      (⟨[], []⟩ : AggState α) := by
    rw [aggregateCands]
    exact hfold _ _ hsorted0
  rw [getPattern, hagg, patternOf_empty]
  rfl

/-- Witness for C9 at a concrete input. -/
theorem c9_witness :
    (∀ p ∈ filterMinR (0 : ℚ) [⟨(0, 0, 0), 0⟩], p.g = 0) ∧
      getPattern trivPhys 1 0 false false 0 [⟨(0, 0, 0), 0⟩] =
        .error .emptySequence := by
  have hall : ∀ p ∈ filterMinR (0 : ℚ) [⟨(0, 0, 0), 0⟩], p.g = 0 := by
    simp [filterMinR]
  exact ⟨hall, c9_no_points_empty_max_error trivPhys 1 0 false false 0
    [⟨(0, 0, 0), 0⟩] hall⟩

/-- C4: the final pattern contains exactly those aggregated peaks whose
intensity, as a percentage of the maximum accumulated intensity, strictly
exceeds the `SCALED_INTENSITY_TOL` threshold; the retained peaks keep their
pre-filter intensity, their grouped Miller-index families and their d-spacing. -/
theorem c4_threshold_filter_exact {α : Type} [LinearOrderedField α]
    [FloorRing α] (phys : Physics α) {tol : α} (stol : α) (isHex : Bool)
    (minR : α) (pts : List (CandPt α)) {pat : Pattern α} (htol : 0 < tol)
    (hok : getPattern phys tol stol isHex false minR pts = .ok pat) :
    (pat.y = ((sortPeaks (aggregateCands phys tol isHex (filterMinR minR pts)).peaks).filter
        (fun p => stol < p.2.intensity /
          maxIntensity (aggregateCands phys tol isHex (filterMinR minR pts)).peaks * 100)).map
        (fun p => p.2.intensity) ∧
      pat.hkls = ((sortPeaks (aggregateCands phys tol isHex (filterMinR minR pts)).peaks).filter
        (fun p => stol < p.2.intensity /
          maxIntensity (aggregateCands phys tol isHex (filterMinR minR pts)).peaks * 100)).map
        (fun p => get_unique_families p.2.hkls) ∧
      pat.d_hkls = ((sortPeaks (aggregateCands phys tol isHex (filterMinR minR pts)).peaks).filter
        (fun p => stol < p.2.intensity /
          maxIntensity (aggregateCands phys tol isHex (filterMinR minR pts)).peaks * 100)).map
        (fun p => p.2.d)) ∧
    ∀ q ∈ sortPeaks (aggregateCands phys tol isHex (filterMinR minR pts)).peaks,
      (q.1 ∈ pat.x ↔ stol < q.2.intensity /
        maxIntensity (aggregateCands phys tol isHex (filterMinR minR pts)).peaks * 100) := by
  have heq := getPattern_ok_unscaled hok
  refine ⟨by rw [heq]; exact ⟨rfl, rfl, rfl⟩, ?_⟩
  intro q hq
  have hx : pat.x = ((sortPeaks (aggregateCands phys tol isHex
      (filterMinR minR pts)).peaks).filter
        (fun p => stol < p.2.intensity /
          maxIntensity (aggregateCands phys tol isHex (filterMinR minR pts)).peaks * 100)).map
      Prod.fst := by
    rw [heq]
  constructor
  · intro hmem
    rw [hx] at hmem
    obtain ⟨q', hq', hfst⟩ := List.mem_map.mp hmem
    have hq'mem : q' ∈ sortPeaks (aggregateCands phys tol isHex
        (filterMinR minR pts)).peaks := List.mem_of_mem_filter hq'
    have hnd := getPattern_keys_nodup phys isHex htol (filterMinR minR pts)
    have hqq : q' = q := List.inj_on_of_nodup_map hnd hq'mem hq hfst
    subst hqq
    have := List.of_mem_filter hq'
    simpa using this
  · intro hlt
    rw [hx]
    exact List.mem_map.mpr ⟨q, List.mem_filter.mpr ⟨hq, by simpa using hlt⟩, rfl⟩

/-- Witness for C4 at a concrete input. -/
theorem c4_witness :
    (0 : ℚ) < 1 ∧
      getPattern trivPhys 1 0 false false 0 [⟨(0, 0, 0), 1⟩] =
        .ok ⟨[1], [1], [[([0, 0, 0], 1)]], [1]⟩ ∧
      ∀ q ∈ sortPeaks (aggregateCands trivPhys 1 false
          (filterMinR (0 : ℚ) [⟨(0, 0, 0), 1⟩])).peaks,
        (q.1 ∈ (⟨[1], [1], [[([0, 0, 0], 1)]], [1]⟩ : Pattern ℚ).x ↔
          (0 : ℚ) < q.2.intensity / maxIntensity (aggregateCands trivPhys 1 false
            (filterMinR (0 : ℚ) [⟨(0, 0, 0), 1⟩])).peaks * 100) :=
  ⟨one_pos, concreteRun,
    (c4_threshold_filter_exact trivPhys 0 false 0 [⟨(0, 0, 0), 1⟩] one_pos
      concreteRun).2⟩

/-- C7: with a hexagonal lattice every Miller index recorded in the output is a
4-tuple of the Miller-Bravais form `(h, k, -h-k, l)` (hence `h + k + i = 0`),
with a non-hexagonal lattice every recorded index is a 3-tuple, and the
conversion affects only the recorded indices: the angles, intensities and
d-spacings of the pattern are identical whether or not the lattice is
hexagonal. -/
theorem c7_hexagonal_miller_bravais {α : Type} [LinearOrderedField α]
    [FloorRing α] (phys : Physics α) {tol : α} (stol : α) (scaled : Bool)
    (minR : α) (pts : List (CandPt α)) (htol : 0 < tol) :
    ((getPattern phys tol stol true scaled minR pts).map Pattern.x =
        (getPattern phys tol stol false scaled minR pts).map Pattern.x ∧
      (getPattern phys tol stol true scaled minR pts).map Pattern.y =
        (getPattern phys tol stol false scaled minR pts).map Pattern.y ∧
      (getPattern phys tol stol true scaled minR pts).map Pattern.d_hkls =
        (getPattern phys tol stol false scaled minR pts).map Pattern.d_hkls) ∧
    (∀ pat, getPattern phys tol stol true scaled minR pts = .ok pat →
      ∀ fam ∈ pat.hkls, ∀ pr ∈ fam, ∃ a b d2, pr.1 = [a, b, -a - b, d2]) ∧
    (∀ pat, getPattern phys tol stol false scaled minR pts = .ok pat →
      ∀ fam ∈ pat.hkls, ∀ pr ∈ fam, ∃ a b c2, pr.1 = [a, b, c2]) := by
  refine ⟨?_, ?_, ?_⟩
  · have hmap := patternOf_mapHex stol scaled
      (aggregateCands phys tol false (filterMinR minR pts))
    have hagg := aggregate_hexCommute phys tol (filterMinR minR pts)
    rw [getPattern, getPattern, hagg]
    exact hmap
  · intro pat hok fam hfam pr hpr
    obtain ⟨t, ht⟩ := getPattern_recorded_shape htol hok fam hfam pr hpr
    exact ⟨t.1, t.2.1, t.2.2, by rw [ht]; rfl⟩
  · intro pat hok fam hfam pr hpr
    obtain ⟨t, ht⟩ := getPattern_recorded_shape htol hok fam hfam pr hpr
    exact ⟨t.1, t.2.1, t.2.2, by rw [ht]; rfl⟩

/-- C3: every intensity in a successfully returned pattern is non-negative —
the real physics produces only non-negative per-point intensities (`|F|^2`
times a non-negative Lorentz-polarization factor at `theta = arcsin x`), and
the pipeline preserves non-negativity — and when `scaled=true` the maximum
intensity of a nonempty returned pattern is exactly 100, by the single linear
rescaling applied at the end. -/
theorem c3_nonneg_intensities_scaled_max_100 :
    (∀ (wl : ℝ) (flat : List (FlatRec ℝ)) (hkl : ℤ × ℤ × ℤ) (g : ℝ),
        0 ≤ (realPhysics wl flat).intensity hkl g) ∧
    (∀ (phys : Physics ℝ) (tol stol : ℝ) (isHex scaled : Bool) (minR : ℝ)
        (pts : List (CandPt ℝ)) (pat : Pattern ℝ), 0 ≤ stol →
        (∀ hkl g, 0 ≤ phys.intensity hkl g) →
        getPattern phys tol stol isHex scaled minR pts = .ok pat →
        (∀ v ∈ pat.y, 0 ≤ v) ∧
          (scaled = true → pat.y ≠ [] → maxList pat.y = 100)) ∧
    (∀ (wl : ℝ) (params : String → Option (List (ℝ × ℝ))) (dwf : String → ℝ)
        (struct : List (SiteT ℝ)) (tol stol : ℝ) (isHex scaled : Bool)
        (range : Option (ℝ × ℝ)) (pts : List (CandPt ℝ)) (pat : Pattern ℝ),
        0 ≤ stol →
        getPatternR wl params dwf struct tol stol isHex scaled range pts = .ok pat →
        (∀ v ∈ pat.y, 0 ≤ v) ∧
          (scaled = true → pat.y ≠ [] → maxList pat.y = 100)) := by
  refine ⟨realPhysics_intensity_nonneg, ?_, ?_⟩
  · intro phys tol stol isHex scaled minR pts pat hstol hI hok
    exact getPattern_y_nonneg_scaled_max hstol hI hok
  · intro wl params dwf struct tol stol isHex scaled range pts pat hstol hok
    rw [getPatternR] at hok
    cases hflat : flattenSites params dwf struct with
    | error s => rw [hflat] at hok; exact absurd hok (by simp)
    | ok flat =>
      rw [hflat] at hok
      simp only [] at hok
      cases hrun : getPattern (realPhysics wl flat) tol stol isHex scaled
          (rBounds wl range).1 pts with
      | error e =>
        rw [hrun] at hok
        simp at hok
      | ok pat2 =>
        rw [hrun] at hok
        simp only [] at hok
        have hpp : pat2 = pat := by
          simpa using hok
        subst hpp
        exact getPattern_y_nonneg_scaled_max hstol
          (realPhysics_intensity_nonneg wl flat) hrun

/-- Witness for C3 at a concrete input. -/
theorem c3_witness :
    (0 : ℝ) ≤ 0 ∧
      (∀ (hkl : ℤ × ℤ × ℤ) (g : ℝ), 0 ≤ (trivPhysA ℝ).intensity hkl g) ∧
      getPattern (trivPhysA ℝ) 1 0 false true 0 [⟨(0, 0, 0), 1⟩] =
        .ok ⟨[1], [100], [[([0, 0, 0], 1)]], [1]⟩ ∧
      ((∀ v ∈ (⟨[1], [100], [[([0, 0, 0], 1)]], [1]⟩ : Pattern ℝ).y, 0 ≤ v) ∧
        (true = true → (⟨[1], [100], [[([0, 0, 0], 1)]], [1]⟩ : Pattern ℝ).y ≠ [] →
          maxList (⟨[1], [100], [[([0, 0, 0], 1)]], [1]⟩ : Pattern ℝ).y = 100)) := by
  have hI : ∀ (hkl : ℤ × ℤ × ℤ) (g : ℝ), 0 ≤ (trivPhysA ℝ).intensity hkl g := by
    intro hkl g
    exact zero_le_one
  have hrun := concreteRun0 (α := ℝ) true
  simp only [if_pos rfl] at hrun
  exact ⟨le_refl 0, hI, hrun,
    c3_nonneg_intensities_scaled_max_100.2.1 (trivPhysA ℝ) 1 0 false true 0
      [⟨(0, 0, 0), 1⟩] _ (le_refl 0) hI hrun⟩

/-- C6: `theta = asin(wavelength*g/2)` hits a domain error exactly when `g`
exceeds `2/wavelength`; the upper radius bound derived from the two-theta
window never exceeds `2/wavelength` (so no enumerated point within the bound
can trigger the error); and a `g = 0` candidate is skipped entirely by the
loop, so the Lorentz-polarization division at `theta = 0` is never evaluated. -/
theorem c6_bragg_domain_and_origin_exclusion (wl g : ℝ)
    (range : Option (ℝ × ℝ)) (hwl : 0 < wl) (hg : 0 ≤ g) :
    (braggThetaChecked wl g = none ↔ 2 / wl < g) ∧
      (rBounds wl range).2 ≤ 2 / wl ∧
      (g ≤ (rBounds wl range).2 → braggThetaChecked wl g ≠ none) ∧
      (∀ (phys : Physics ℝ) (tol : ℝ) (isHex : Bool) (st : AggState ℝ)
        (c : CandPt ℝ), c.g = 0 → processCand phys tol isHex st c = st) :=
  ⟨braggThetaChecked_none_iff hwl hg, rBounds_max_le hwl range,
    fun hle => braggTheta_defined_in_window range hwl hg hle,
    fun _ _ _ _ _ hc => processCand_gzero hc⟩

/-- Witness for C6 at a concrete input. -/
theorem c6_witness :
    (0 : ℝ) < 1 ∧ (0 : ℝ) ≤ 0 ∧
      ((braggThetaChecked 1 0 = none ↔ 2 / 1 < (0 : ℝ)) ∧
        (rBounds 1 none).2 ≤ 2 / 1 ∧
        ((0 : ℝ) ≤ (rBounds 1 none).2 → braggThetaChecked 1 0 ≠ none) ∧
        (∀ (phys : Physics ℝ) (tol : ℝ) (isHex : Bool) (st : AggState ℝ)
          (c : CandPt ℝ), c.g = 0 → processCand phys tol isHex st c = st)) :=
  ⟨one_pos, le_refl 0,
    c6_bragg_domain_and_origin_exclusion 1 0 none one_pos (le_refl 0)⟩

/-- Witness for C7 at a concrete input. -/
theorem c7_witness :
    (0 : ℚ) < 1 ∧
      (getPattern trivPhys 1 0 true false 0 [⟨(0, 0, 0), 1⟩]).map Pattern.y =
        (getPattern trivPhys 1 0 false false 0 [⟨(0, 0, 0), 1⟩]).map Pattern.y :=
  ⟨one_pos,
    (c7_hexagonal_miller_bravais trivPhys 0 false 0 [⟨(0, 0, 0), 1⟩]
      one_pos).1.2.1⟩

/-- Witness for C1 at a concrete input. -/
theorem c1_witness :
    (0 : ℚ) < 1 ∧
      getPattern trivPhys 1 0 false false 0 [⟨(0, 0, 0), 1⟩] =
        .ok ⟨[1], [1], [[([0, 0, 0], 1)]], [1]⟩ ∧
      (List.Pairwise (· < ·) [(1 : ℚ)] ∧
        List.Pairwise (fun a b => (1 : ℚ) ≤ |a - b|) [(1 : ℚ)]) :=
  ⟨one_pos, concreteRun,
    c1_two_thetas_ascending_and_separated trivPhys 0 false false 0
      [⟨(0, 0, 0), 1⟩] one_pos concreteRun⟩

/-- C5 counterexample: the string `"Xyz"` is neither numeric nor a recognized
radiation name, and construction does fail (with the `KeyError` of
`WAVELENGTHS[wavelength]`), but partial state HAS been created: the
`radiation` attribute was assigned before the failing table lookup, so the
claim that no attribute is set before the error is raised is false. -/
theorem c5_counterexample :
    WAVELENGTHS.lookup "Xyz" = none ∧
      (XRDCalculator.init (.str "Xyz") 0 []).2 = some (.keyError "Xyz") ∧
      ¬(XRDCalculator.init (.str "Xyz") 0 []).1 = emptyCalcState ∧
      (XRDCalculator.init (.str "Xyz") 0 []).1.radiation = some "Xyz" := by
  have hl : WAVELENGTHS.lookup "Xyz" = none := by rfl
  refine ⟨hl, ?_, ?_, ?_⟩
  · simp [XRDCalculator.init, hl]
  · simp [XRDCalculator.init, hl, emptyCalcState]
  · simp [XRDCalculator.init, hl]

/-- C5 (amended): a wavelength that is neither numeric nor a string fails with
a `TypeError` before any attribute is assigned; a string wavelength that names
no known radiation fails with a `KeyError`, but only after the `radiation`
attribute has already been set. -/
theorem c5_amended_error_and_partial_state (symprec : ℚ)
    (dwf : List (String × ℚ)) :
    (∀ t, XRDCalculator.init (.other t) symprec dwf =
        (emptyCalcState, some (.typeError t))) ∧
      (∀ s, WAVELENGTHS.lookup s = none →
        XRDCalculator.init (.str s) symprec dwf =
          ({ emptyCalcState with radiation := some s }, some (.keyError s))) := by
  refine ⟨fun t => rfl, fun s hs => ?_⟩
  simp [XRDCalculator.init, hs, emptyCalcState]

/-- Witness for the amended C5 at a concrete input. -/
theorem c5_witness :
    WAVELENGTHS.lookup "Xyz" = none ∧
      XRDCalculator.init (.str "Xyz") 0 [] =
        ({ emptyCalcState with radiation := some "Xyz" }, some (.keyError "Xyz")) := by
  have hl : WAVELENGTHS.lookup "Xyz" = none := by rfl
  exact ⟨hl, (c5_amended_error_and_partial_state 0 []).2 "Xyz" hl⟩

/-- C8: if any species of the structure has no entry in the scattering table,
`get_pattern` fails with the missing-coefficients error during the flattening
pass — before any structure factor is evaluated, and uniformly in the
candidate points, so no partial pattern is ever returned. -/
theorem c8_missing_scattering_fatal (wl : ℝ)
    (params : String → Option (List (ℝ × ℝ))) (dwf : String → ℝ)
    (struct : List (SiteT ℝ)) (tol stol : ℝ) (isHex scaled : Bool)
    (range : Option (ℝ × ℝ))
    (hmiss : ∃ site ∈ struct, ∃ p ∈ site.species, params p.1.symbol = none) :
    ∃ s, params s = none ∧
      ∀ pts, getPatternR wl params dwf struct tol stol isHex scaled range pts =
        .error (.missingScattering s) := by
  obtain ⟨s, hs, hsn⟩ := flattenSites_error_of_missing hmiss
  refine ⟨s, hsn, fun pts => ?_⟩
  rw [getPatternR, hs]

/-- Witness for C8 at a concrete input. -/
theorem c8_witness :
    (∃ site ∈ [(⟨(0, 0, 0), [(⟨1, "Xx"⟩, 1)]⟩ : SiteT ℝ)], ∃ p ∈ site.species,
        (fun _ : String => (none : Option (List (ℝ × ℝ)))) p.1.symbol = none) ∧
      ∃ s, (fun _ : String => (none : Option (List (ℝ × ℝ)))) s = none ∧
        ∀ pts, getPatternR 1 (fun _ => none) (fun _ => 0)
          [⟨(0, 0, 0), [(⟨1, "Xx"⟩, 1)]⟩] 1 0 false false none pts =
          .error (.missingScattering s) := by
  have hmiss : ∃ site ∈ [(⟨(0, 0, 0), [(⟨1, "Xx"⟩, 1)]⟩ : SiteT ℝ)],
      ∃ p ∈ site.species,
        (fun _ : String => (none : Option (List (ℝ × ℝ)))) p.1.symbol = none :=
    ⟨⟨(0, 0, 0), [(⟨1, "Xx"⟩, 1)]⟩, List.mem_cons_self _ _,
      (⟨1, "Xx"⟩, 1), List.mem_cons_self _ _, rfl⟩
  exact ⟨hmiss, c8_missing_scattering_fatal 1 (fun _ => none) (fun _ => 0)
    [⟨(0, 0, 0), [(⟨1, "Xx"⟩, 1)]⟩] 1 0 false false none hmiss⟩

end XRD

namespace Entries

/-- C10: `Entry.normalize` returns a new entry whose composition and energy are
both divided by the same normalization factor determined by the mode (number of
atoms for `"atom"`, the reduced-formula factor for `"formula_unit"`); the
receiver is untouched — the method only reads `self` through `as_dict` and
builds the result with `from_dict`, which the pure embedding renders as a
function of the original entry. -/
theorem c10_normalize_divides_both_by_same_factor
    (redFactor : Composition → ℚ) (e : Entry) (mode : NormMode) :
    (Entry.normalize redFactor e mode).composition =
        e.composition.div (Entry.normalizationFactor redFactor e mode) ∧
      (Entry.normalize redFactor e mode).energy =
        e.energy / Entry.normalizationFactor redFactor e mode :=
  ⟨rfl, rfl⟩

end Entries
